import Mathlib

/-!
Verification of the sentiment-aggregation core of the `sentiments` repository.

The TypeScript source is shallowly embedded: JS numbers are modelled as `ℚ`
(comment scores as `ℤ`), fallible lookups as `Option`, and the external VADER
polarity scorer as an explicit function argument `Scorer`, since the source
treats it as a black box `text -> {compound, pos, neu, neg}`.

Embedded components:
  * `src/server/sentiment.ts` — `getSentimentLabel`, `analyzeCommentSentiment`,
    `calculateWeightedAverageSentiment`, `analyzeRedditData`;
  * `src/reddit.ts` (`fetchComments`, lines 150-176) — the comment-tree builder;
  * `src/ner.ts` and the server copy in `src/server/sentiment.ts` —
    `buildEntityChains`;
  * `src/server/storage.ts` (`saveConsolidatedAnalysis`, lines 113-171) — the
    cross-source entity-chain consolidation.
-/

namespace Sentiments

/-- `SentimentScores` from `src/server/types/sentiment.ts`:
four numeric fields `{compound, pos, neu, neg}`. -/
@[ext]
structure SentimentScores where
  compound : ℚ
  pos : ℚ
  neu : ℚ
  neg : ℚ
deriving DecidableEq

/-- The zero vector `{compound: 0, pos: 0, neu: 0, neg: 0}`. -/
def zeroScores : SentimentScores := ⟨0, 0, 0, 0⟩

/-- `getSentimentLabel` from `src/server/sentiment.ts` lines 5-11. -/
def getSentimentLabel (compound : ℚ) : String :=
  if 5 / 100 ≤ compound then "positive"
  else if compound ≤ -(5 / 100) then "negative"
  else "neutral"

/-- `SentimentAnalysis` from `src/server/types/sentiment.ts`
(the optional `processed` field is never set by the embedded code paths). -/
structure SentimentAnalysis where
  original : SentimentScores
  overall : SentimentScores
  label : String
deriving DecidableEq

/-- The external polarity scorer
`VADER.SentimentIntensityAnalyzer.polarity_scores`, treated as a black box. -/
abbrev Scorer := String → SentimentScores

/-- `RedditComment` from `src/server/types/reddit.ts`, restricted to the
fields the sentiment aggregation reads (`text`, `score`, `replies`). -/
inductive RedditComment where
  | mk (text : String) (score : ℤ) (replies : List RedditComment)

def RedditComment.text : RedditComment → String
  | .mk t _ _ => t

def RedditComment.score : RedditComment → ℤ
  | .mk _ s _ => s

def RedditComment.replies : RedditComment → List RedditComment
  | .mk _ _ rs => rs

/-- `analyzeCommentSentiment` from `src/server/sentiment.ts` lines 13-23.
It passes `comment.text` to the scorer unconditionally: there is no
empty-text short-circuit in the source. -/
def analyzeCommentSentiment (scorer : Scorer) (comment : RedditComment) :
    SentimentAnalysis :=
  let sentiment := scorer comment.text
  { original := sentiment
    overall := sentiment
    label := getSentimentLabel sentiment.compound }

/-- `calculateWeightedAverageSentiment` from `src/server/sentiment.ts`
lines 25-83.  The JS `reduce` accumulators (including the closed-over
`totalScore` variable of the weighted branch) become `List.foldl`. -/
def calculateWeightedAverageSentiment (scorer : Scorer)
    (comments : List RedditComment) : SentimentScores :=
  if comments.length = 0 then
    { compound := 0, pos := 0, neu := 0, neg := 0 }
  else
    let validComments := comments.filter fun comment => 0 < comment.score
    if validComments.length = 0 then
      let simpleAvg := comments.foldl
        (fun (acc : SentimentScores) comment =>
          let sentiment := scorer comment.text
          { compound := acc.compound + sentiment.compound
            pos := acc.pos + sentiment.pos
            neu := acc.neu + sentiment.neu
            neg := acc.neg + sentiment.neg })
        { compound := 0, pos := 0, neu := 0, neg := 0 }
      { compound := simpleAvg.compound / (comments.length : ℚ)
        pos := simpleAvg.pos / (comments.length : ℚ)
        neu := simpleAvg.neu / (comments.length : ℚ)
        neg := simpleAvg.neg / (comments.length : ℚ) }
    else
      let weighted := validComments.foldl
        (fun (acc : SentimentScores × ℚ) comment =>
          let sentiment := scorer comment.text
          ({ compound := acc.1.compound + sentiment.compound * (comment.score : ℚ)
             pos := acc.1.pos + sentiment.pos * (comment.score : ℚ)
             neu := acc.1.neu + sentiment.neu * (comment.score : ℚ)
             neg := acc.1.neg + sentiment.neg * (comment.score : ℚ) },
           acc.2 + (comment.score : ℚ)))
        ({ compound := 0, pos := 0, neu := 0, neg := 0 }, 0)
      { compound := weighted.1.compound / weighted.2
        pos := weighted.1.pos / weighted.2
        neu := weighted.1.neu / weighted.2
        neg := weighted.1.neg / weighted.2 }

/-- The two-tier weighted-average policy exactly as the specification words
it (§4.2): empty list → zero vector; some positive weight → for each field
`sum(field_i * score_i) / sum(score_i)` over only the positive-score
comments; no positive weight → unweighted arithmetic mean over all. -/
def specWeightedAverage (scorer : Scorer) (comments : List RedditComment) :
    SentimentScores :=
  if comments.isEmpty then zeroScores
  else
    let positive := comments.filter fun c => 0 < c.score
    if positive.isEmpty then
      { compound := ((comments.map fun c => (scorer c.text).compound).sum) / (comments.length : ℚ)
        pos := ((comments.map fun c => (scorer c.text).pos).sum) / (comments.length : ℚ)
        neu := ((comments.map fun c => (scorer c.text).neu).sum) / (comments.length : ℚ)
        neg := ((comments.map fun c => (scorer c.text).neg).sum) / (comments.length : ℚ) }
    else
      let w : ℚ := (positive.map fun c => (c.score : ℚ)).sum
      { compound := ((positive.map fun c => (scorer c.text).compound * (c.score : ℚ)).sum) / w
        pos := ((positive.map fun c => (scorer c.text).pos * (c.score : ℚ)).sum) / w
        neu := ((positive.map fun c => (scorer c.text).neu * (c.score : ℚ)).sum) / w
        neg := ((positive.map fun c => (scorer c.text).neg * (c.score : ℚ)).sum) / w }

/-- `Discussion` from `src/server/types/reddit.ts`, restricted to the fields
the sentiment pipeline reads. `comments` holds the ROOT comments of the
reply tree (each with its nested `replies`), as produced by `fetchComments`. -/
structure Discussion where
  id : String
  title : String
  comments : List RedditComment

/-- `RedditData` from `src/server/types/reddit.ts`, restricted likewise. -/
structure RedditData where
  subreddit : String
  query : String
  discussions : List Discussion

/-- A comment annotated with its computed sentiment: the state of a
`RedditComment` after `analyzeRedditData` has set `comment.sentiment`. -/
inductive AnnComment where
  | mk (text : String) (score : ℤ) (sentiment : SentimentAnalysis)
      (replies : List AnnComment)

def AnnComment.text : AnnComment → String
  | .mk t _ _ _ => t

def AnnComment.sentiment : AnnComment → SentimentAnalysis
  | .mk _ _ s _ => s

mutual

/-- The inner `analyzeCommentSentimentRecursive` of `analyzeRedditData`
(`src/server/sentiment.ts` lines 87-96): sets `comment.sentiment` on a
comment and then on every nested reply. -/
def analyzeCommentSentimentRecursive (scorer : Scorer) :
    RedditComment → AnnComment
  | .mk t sc rs =>
      .mk t sc (analyzeCommentSentiment scorer (.mk t sc rs))
        (annotateList scorer rs)

def annotateList (scorer : Scorer) : List RedditComment → List AnnComment
  | [] => []
  | c :: cs => analyzeCommentSentimentRecursive scorer c :: annotateList scorer cs

end

/-- A `Discussion` after `analyzeRedditData`: annotated comments plus the
discussion-level `sentiment`. -/
structure AnalyzedDiscussion where
  id : String
  title : String
  comments : List AnnComment
  sentiment : SentimentAnalysis

/-- `RedditData` after `analyzeRedditData`: analyzed discussions plus the
subreddit-level `sentiment`. -/
structure AnalyzedRedditData where
  subreddit : String
  query : String
  discussions : List AnalyzedDiscussion
  sentiment : SentimentAnalysis

/-- `analyzeRedditData` from `src/server/sentiment.ts` lines 85-125.
Per-comment sentiment is assigned recursively over the whole reply tree,
but the discussion-level aggregate is `calculateWeightedAverageSentiment`
of `discussion.comments` (the root comments only), and the subreddit-level
aggregate is over `data.discussions.flatMap(d => d.comments)`,
again root comments only — exactly as the source does. -/
def analyzeRedditData (scorer : Scorer) (data : RedditData) :
    AnalyzedRedditData :=
  let discussions := data.discussions.map fun discussion =>
    let discussionSentiment :=
      calculateWeightedAverageSentiment scorer discussion.comments
    { id := discussion.id
      title := discussion.title
      comments := discussion.comments.map (analyzeCommentSentimentRecursive scorer)
      sentiment :=
        { original := discussionSentiment
          overall := discussionSentiment
          label := getSentimentLabel discussionSentiment.compound } }
  let allComments := data.discussions.flatMap fun d => d.comments
  let subredditSentiment := calculateWeightedAverageSentiment scorer allComments
  { subreddit := data.subreddit
    query := data.query
    discussions := discussions
    sentiment :=
      { original := subredditSentiment
        overall := subredditSentiment
        label := getSentimentLabel subredditSentiment.compound } }

mutual

/-- Full traversal of a reply tree: the comment itself followed by every
comment of its (transitively nested) replies.  This is the flattening the
specification's §4.1/§4.2 refer to. -/
def RedditComment.flatten : RedditComment → List RedditComment
  | .mk t s rs => .mk t s rs :: flattenList rs

/-- Flattening of a list of reply trees, in order. -/
def flattenList : List RedditComment → List RedditComment
  | [] => []
  | c :: cs => RedditComment.flatten c ++ flattenList cs

end

/-- Drop the nested replies of a root comment (the whole subtree below it). -/
def RedditComment.stripReplies : RedditComment → RedditComment
  | .mk t s _ => .mk t s []

/-- Replace every discussion's comment forest with just its root comments,
with all nested replies removed. -/
def stripNestedReplies (data : RedditData) : RedditData :=
  { data with
    discussions := data.discussions.map fun d =>
      { d with comments := d.comments.map RedditComment.stripReplies } }

def exScorer : Scorer := fun t => if t = "B" then ⟨1, 1, 0, 0⟩ else ⟨0, 0, 1, 0⟩

def exReply : RedditComment := .mk "B" 100 []

def exRoot : RedditComment := .mk "A" 1 [exReply]

def exDisc : Discussion := ⟨"d1", "t1", [exRoot]⟩

def exData : RedditData := ⟨"sub", "q", [exDisc]⟩

def extremeScorer : Scorer := fun _ => ⟨1, 1, 0, 0⟩

/-! ### Comment-tree builder, `src/reddit.ts` lines 134-176

The raw comments of one post, in fetch order.  The builder makes two passes:
pass 1 fills `commentMap` (a JS `Map`, last write wins, comments with a falsy
`id` skipped); pass 2 places each comment, in input order, either into the
root list or into the `replies` of the comment found under its stripped
parent id.  The resulting object graph is modelled by index functions:
`parentIdx i = some j` says comment `i` was pushed into `j`'s `replies`, and
`parentIdx i = none` says it was pushed into the root list. -/

/-- One element of the flat `allComments` array (`src/reddit.ts` lines
134-148) before tree linking; `replies` starts empty so it is not a field
here. -/
structure RawComment where
  id : String
  parentId : Option String
  text : String
  score : ℤ
deriving DecidableEq

def defaultRawComment : RawComment := ⟨"", none, "", 0⟩

/-- The comment at position `i` of the input array. -/
def cAt (cs : List RawComment) (i : ℕ) : RawComment :=
  cs.getD i defaultRawComment

/-- `parentId.startsWith("t3_")`. -/
def startsWithT3 (s : String) : Bool :=
  "t3_".data.isPrefixOf s.data

/-- JS `String.replace` with a string pattern replaces only the FIRST
occurrence of the pattern. -/
def replaceFirstAux (pat : List Char) : List Char → List Char
  | [] => []
  | c :: rest =>
      if pat.isPrefixOf (c :: rest) then (c :: rest).drop pat.length
      else c :: replaceFirstAux pat rest

/-- `parentId.replace("t1_", "")`. -/
def stripT1 (s : String) : String :=
  ⟨replaceFirstAux "t1_".data s.data⟩

/-- Pass 1: `commentMap.get(s)` resolves to the LAST input comment whose
(truthy, i.e. non-empty) `id` equals `s`, because `Map.set` overwrites. -/
def idIndex (cs : List RawComment) (s : String) : Option ℕ :=
  ((List.range cs.length).filter fun j =>
      (cAt cs j).id == s && (cAt cs j).id != "").getLast?

/-- Pass 2 placement of comment `i` (`src/reddit.ts` lines 159-176):
`none` = pushed to `rootComments` (no parent id, a `t3_` parent, or a
failed lookup — the orphan-promotion branch); `some j` = pushed into the
`replies` of the comment at index `j`. -/
def parentIdx (cs : List RawComment) (i : ℕ) : Option ℕ :=
  match (cAt cs i).parentId with
  | none => none
  | some pid =>
      if pid = "" then none
      else if startsWithT3 pid then none
      else
        match idIndex cs (stripT1 pid) with
        | some j => some j
        | none => none

/-- The indices pushed to `rootComments`, in input order. -/
def rootIndices (cs : List RawComment) : List ℕ :=
  (List.range cs.length).filter fun i => parentIdx cs i == none

/-- The indices pushed into comment `j`'s `replies`, in input order. -/
def childIndices (cs : List RawComment) (j : ℕ) : List ℕ :=
  (List.range cs.length).filter fun i => parentIdx cs i == some j

/-- Fuel-bounded replies-traversal of the built object graph from one node.
Fuel `cs.length` is enough to reach every node reachable from a root
(a node at depth `d` needs fuel `d + 1`, and depths are bounded by the
parent-chain lengths). -/
def flattenIdx (cs : List RawComment) : ℕ → ℕ → List ℕ
  | 0, _ => []
  | fuel + 1, i => i :: (childIndices cs i).flatMap (flattenIdx cs fuel)

/-- Replies-traversal from the returned roots: the observable content of the
tree that `fetchComments` stores in `discussion.comments`. -/
def flattenedIndices (cs : List RawComment) : List ℕ :=
  (rootIndices cs).flatMap (flattenIdx cs cs.length)

def flattenedComments (cs : List RawComment) : List RawComment :=
  (flattenedIndices cs).map (cAt cs)

/-- Length of the parent chain of `k` up to a root (inclusive), fuel-bounded:
`some m` when the chain reaches a parentless node within `fuel` steps. -/
def stepsToNone (cs : List RawComment) : ℕ → ℕ → Option ℕ
  | 0, _ => none
  | fuel + 1, k =>
      match parentIdx cs k with
      | none => some 1
      | some j => (stepsToNone cs fuel j).map (· + 1)

/-- The input's parent references contain no cycle: every comment's parent
chain terminates (within `cs.length` steps, which suffices for any
terminating chain). -/
def Acyclic (cs : List RawComment) : Prop :=
  ∀ k < cs.length, (stepsToNone cs cs.length k).isSome

instance (cs : List RawComment) : Decidable (Acyclic cs) :=
  decidable_of_iff
    (∀ k < cs.length, (stepsToNone cs cs.length k).isSome = true) Iff.rfl

/-- Distance (number of chain elements) from `k` to its root. -/
def rank (cs : List RawComment) (k : ℕ) : ℕ :=
  (stepsToNone cs cs.length k).getD 0

/-- `reachesIn cs fuel k i`: iterating `parentIdx` from `k` (zero or more
steps, fewer than `fuel`) passes through `i`. -/
def reachesIn (cs : List RawComment) : ℕ → ℕ → ℕ → Bool
  | 0, _, _ => false
  | fuel + 1, k, i =>
      k == i ||
        match parentIdx cs k with
        | none => false
        | some j => reachesIn cs fuel j i

/-- A single comment whose `parentId` names itself (`t1_a` with own id `a`):
pass 2 pushes it into its own `replies`, so it is never a root. -/
def selfParent : List RawComment := [⟨"a", some "t1_a", "x", 1⟩]

/-- An input whose child appears BEFORE its parent, plus a discussion-level
(`t3_`) root: acyclic, so the rebuilt tree is a permutation of the input. -/
def outOfOrder : List RawComment :=
  [⟨"b", some "t1_a", "x", 1⟩, ⟨"a", some "t3_post", "y", 2⟩]

/-- A single comment whose parent id `t1_zzz` resolves to no input id. -/
def orphanInput : List RawComment := [⟨"a", some "t1_zzz", "hi", 1⟩]

/-! ### Entities and entity chains (`src/ner.ts`, `src/server/sentiment.ts`) -/

/-- `EntityType` from `src/types/entities.ts`. -/
inductive EntityType where
  | PERSON
  | ORGANIZATION
  | LOCATION
deriving DecidableEq

/-- `Entity` from `src/types/entities.ts`. -/
structure Entity where
  text : String
  normalizedText : String
  type : EntityType
  startIndex : ℤ
  endIndex : ℤ
  confidence : ℚ
deriving DecidableEq

/-- The sentiment record `analyzeEntitySentiment` in `src/ner.ts` (lines
217-223) actually produces for a mention:
`{positivity, negativity, neutrality, compound, overall}`. -/
structure NerSentiment where
  positivity : ℚ
  negativity : ℚ
  neutrality : ℚ
  compound : ℚ
  overall : String
deriving DecidableEq

/-- `EntityMention` from `src/ner.ts` lines 12-18. -/
structure EntityMention where
  entity : Entity
  sentiment : NerSentiment
  score : ℤ
  timestamp : String
  postId : String
deriving DecidableEq

/-- One `sentimentTrend` element of `EntityChain` (ner.ts variant). -/
structure TrendEntry where
  timestamp : String
  sentiment : NerSentiment
  score : ℤ
deriving DecidableEq

/-- `EntityChain` from `src/types/entities.ts`, with the ner.ts sentiment
shape. -/
structure EntityChain where
  entity : Entity
  totalMentions : ℕ
  uniquePosts : ℕ
  totalScore : ℤ
  sentimentTrend : List TrendEntry
  averageSentiment : NerSentiment
deriving DecidableEq

/-- The chain key `` `${type}:${normalizedText}` `` of the source.  The three
`EntityType` names contain no colon, so the string key is in bijection with
the pair `(type, normalizedText)`; the pair is used as the key here. -/
def entityKey (e : Entity) : EntityType × String :=
  (e.type, e.normalizedText)

/-- `classifySentiment` from `src/ner.ts` lines 229-235 (identical thresholds
in the server copy). -/
def classifySentiment (compound : ℚ) : String :=
  if 5 / 100 ≤ compound then "positive"
  else if compound ≤ -(5 / 100) then "negative"
  else "neutral"

section AssocMap

variable {κ β : Type} [DecidableEq κ]

/-- A JS `Map` as an insertion-ordered association list: `Map.get`. -/
def assocGet (A : List (κ × β)) (k : κ) : Option β :=
  (A.find? fun e => e.1 == k).map Prod.snd

/-- `Map.has`. -/
def assocHas (A : List (κ × β)) (k : κ) : Bool :=
  (A.find? fun e => e.1 == k).isSome

/-- In-place mutation of the entry at `k` (position preserved). -/
def assocUpdate (A : List (κ × β)) (k : κ) (f : β → β) : List (κ × β) :=
  A.map fun e => if e.1 == k then (e.1, f e.2) else e

/-- One step of the `for (const mention of mentions)` / `for (const chain of
allEntityChains)` loops: insert a fresh record if the key is absent, then
mutate the record at the key. -/
def assocStep {α : Type} (keyOf : α → κ) (init : α → β) (add : β → α → β)
    (A : List (κ × β)) (x : α) : List (κ × β) :=
  let k := keyOf x
  let A1 := if assocHas A k then A else A ++ [(k, init x)]
  assocUpdate A1 k fun b => add b x

end AssocMap

/-- The fresh chain record inserted by `buildEntityChains` in `src/ner.ts`
lines 288-303 (counters zero, empty trend, all-zero neutral sentiment). -/
def initialChain (m : EntityMention) : EntityChain :=
  { entity := m.entity
    totalMentions := 0
    uniquePosts := 0
    totalScore := 0
    sentimentTrend := []
    averageSentiment :=
      { positivity := 0, negativity := 0, neutrality := 0, compound := 0
        overall := "neutral" } }

/-- The mutation applied per mention (`src/ner.ts` lines 305-312). -/
def addMention (c : EntityChain) (m : EntityMention) : EntityChain :=
  { c with
    totalMentions := c.totalMentions + 1
    totalScore := c.totalScore + m.score
    sentimentTrend := c.sentimentTrend ++
      [{ timestamp := m.timestamp, sentiment := m.sentiment, score := m.score }] }

/-- Accumulator record of the weighted-sentiment `reduce` in
`src/ner.ts` lines 330-341. -/
structure NerAcc where
  positivity : ℚ
  negativity : ℚ
  neutrality : ℚ
  compound : ℚ

/-- The per-chain pass of `src/ner.ts` lines 316-348: `uniquePosts` is the
number of DISTINCT SCORE values of the trend (`new Set(trend.map(t =>
t.score.toString()))`; integer printing is injective, so distinct strings =
distinct scores), and the average sentiment is score-weighted with weight
`score / totalScoreWeight` when the weight sum is positive, else left
unchanged. -/
def finalizeChain (c : EntityChain) : EntityChain :=
  let uniquePostIds := (c.sentimentTrend.map fun t => t.score).dedup
  let totalScoreWeight : ℤ := (c.sentimentTrend.map fun t => t.score).sum
  if 0 < totalScoreWeight then
    let weightedSentiment := c.sentimentTrend.foldl
      (fun (acc : NerAcc) trend =>
        let weight : ℚ := (trend.score : ℚ) / (totalScoreWeight : ℚ)
        { positivity := acc.positivity + trend.sentiment.positivity * weight
          negativity := acc.negativity + trend.sentiment.negativity * weight
          neutrality := acc.neutrality + trend.sentiment.neutrality * weight
          compound := acc.compound + trend.sentiment.compound * weight })
      { positivity := 0, negativity := 0, neutrality := 0, compound := 0 }
    { c with
      uniquePosts := uniquePostIds.length
      averageSentiment :=
        { positivity := weightedSentiment.positivity
          negativity := weightedSentiment.negativity
          neutrality := weightedSentiment.neutrality
          compound := weightedSentiment.compound
          overall := classifySentiment weightedSentiment.compound } }
  else
    { c with uniquePosts := uniquePostIds.length }

/-- `buildEntityChains` from `src/ner.ts` lines 282-353: group the mentions
into a keyed map, finalize each chain, and sort descending by `totalScore`
(the JS comparator `(a, b) => b.totalScore - a.totalScore`; `Array.sort` is
stable, as is `List.mergeSort`). -/
def buildEntityChains (mentions : List EntityMention) : List EntityChain :=
  let chainMap := mentions.foldl
    (assocStep (fun m => entityKey m.entity) initialChain addMention) []
  (((chainMap.map Prod.snd).map finalizeChain).mergeSort
    fun a b => decide (b.totalScore ≤ a.totalScore))

/-- `EntityMention` of the server copy (`src/server/sentiment.ts` lines
152-158): the sentiment is an `EntitySentimentAnalysis`
`{original, overall, label}` record. -/
structure ServerEntityMention where
  entity : Entity
  sentiment : SentimentAnalysis
  score : ℤ
  timestamp : String
  postId : String
deriving DecidableEq

/-- One `sentimentTrend` element of the server chain. -/
structure ServerTrendEntry where
  timestamp : String
  sentiment : SentimentAnalysis
  score : ℤ
deriving DecidableEq

/-- `EntityChain` from `src/server/types/entities.ts`. -/
structure ServerEntityChain where
  entity : Entity
  totalMentions : ℕ
  uniquePosts : ℕ
  totalScore : ℤ
  sentimentTrend : List ServerTrendEntry
  averageSentiment : SentimentAnalysis
deriving DecidableEq

/-- The neutral default of the server builder (`src/server/sentiment.ts`
lines 434-438 and 497-503): `{neg: 0, neu: 1, pos: 0, compound: 0}` — note
`neu` is 1, NOT 0. -/
def serverNeutralSentiment : SentimentAnalysis :=
  { original := { compound := 0, pos := 0, neu := 1, neg := 0 }
    overall := { compound := 0, pos := 0, neu := 1, neg := 0 }
    label := "neutral" }

/-- The fresh chain record of the server builder (`src/server/sentiment.ts`
lines 427-440). -/
def serverInitialChain (m : ServerEntityMention) : ServerEntityChain :=
  { entity := m.entity
    totalMentions := 0
    uniquePosts := 0
    totalScore := 0
    sentimentTrend := []
    averageSentiment := serverNeutralSentiment }

/-- The per-mention mutation of the server builder (lines 442-449). -/
def serverAddMention (c : ServerEntityChain) (m : ServerEntityMention) :
    ServerEntityChain :=
  { c with
    totalMentions := c.totalMentions + 1
    totalScore := c.totalScore + m.score
    sentimentTrend := c.sentimentTrend ++
      [{ timestamp := m.timestamp, sentiment := m.sentiment, score := m.score }] }

/-- The per-chain pass of the server builder (`src/server/sentiment.ts`
lines 452-504): identical `uniquePosts`-from-scores computation; the
weighted average reads `trend.sentiment.original`; the `else` branch RESETS
`averageSentiment` to the `neu = 1` neutral record. -/
def serverFinalizeChain (c : ServerEntityChain) : ServerEntityChain :=
  let uniquePostIds := (c.sentimentTrend.map fun t => t.score).dedup
  let totalScoreWeight : ℤ := (c.sentimentTrend.map fun t => t.score).sum
  if 0 < totalScoreWeight then
    let weightedSentiment := c.sentimentTrend.foldl
      (fun (acc : SentimentScores) trend =>
        let weight : ℚ := (trend.score : ℚ) / (totalScoreWeight : ℚ)
        { neg := acc.neg + trend.sentiment.original.neg * weight
          neu := acc.neu + trend.sentiment.original.neu * weight
          pos := acc.pos + trend.sentiment.original.pos * weight
          compound := acc.compound + trend.sentiment.original.compound * weight })
      { compound := 0, pos := 0, neu := 0, neg := 0 }
    { c with
      uniquePosts := uniquePostIds.length
      averageSentiment :=
        { original := weightedSentiment
          overall := weightedSentiment
          label := classifySentiment weightedSentiment.compound } }
  else
    { c with
      uniquePosts := uniquePostIds.length
      averageSentiment := serverNeutralSentiment }

/-- `NERService.buildEntityChains` from `src/server/sentiment.ts`
lines 421-509. -/
def serverBuildEntityChains (mentions : List ServerEntityMention) :
    List ServerEntityChain :=
  let chainMap := mentions.foldl
    (assocStep (fun m => entityKey m.entity) serverInitialChain
      serverAddMention) []
  (((chainMap.map Prod.snd).map serverFinalizeChain).mergeSort
    fun a b => decide (b.totalScore ≤ a.totalScore))

/-! ### Cross-source consolidation (`src/server/storage.ts` lines 113-171) -/

/-- `entityBreakdown` of `SubredditEntityAnalysis`. -/
structure EntityBreakdown where
  persons : ℕ
  organizations : ℕ
  locations : ℕ
deriving DecidableEq

/-- `SubredditEntityAnalysis` from `src/server/types/entities.ts`
(the impure `timestamp` field is omitted). -/
structure SubredditEntityAnalysis where
  subreddit : String
  query : String
  totalEntities : ℕ
  totalMentions : ℕ
  totalScore : ℤ
  entityBreakdown : EntityBreakdown
  entityChains : List ServerEntityChain
deriving DecidableEq

/-- The merged-chain record built by `saveConsolidatedAnalysis`
(`src/server/storage.ts` lines 129-135): note it carries NO `uniquePosts`
field, and `averageSentiment` is set once, at creation. -/
structure ConsolidatedChain where
  entity : Entity
  totalMentions : ℕ
  totalScore : ℤ
  sentimentTrend : List ServerTrendEntry
  averageSentiment : SentimentAnalysis
deriving DecidableEq

/-- The `entityAnalysisData` object (`src/server/storage.ts` lines 147-170;
the impure `timestamp` omitted). -/
structure ConsolidatedEntityData where
  query : String
  totalEntities : ℕ
  totalMentions : ℕ
  totalScore : ℤ
  entityBreakdown : EntityBreakdown
  entityChains : List ConsolidatedChain
deriving DecidableEq

/-- The fresh record inserted when a key is first seen (lines 129-135):
counters zero, empty trend, and the FIRST-encountered chain's
already-computed `averageSentiment` carried over verbatim. -/
def initialConsolidated (c : ServerEntityChain) : ConsolidatedChain :=
  { entity := c.entity
    totalMentions := 0
    totalScore := 0
    sentimentTrend := []
    averageSentiment := c.averageSentiment }

/-- The per-chain mutation (lines 137-140): sum the counters and append the
whole per-source trend. -/
def addChain (ex : ConsolidatedChain) (c : ServerEntityChain) :
    ConsolidatedChain :=
  { ex with
    totalMentions := ex.totalMentions + c.totalMentions
    totalScore := ex.totalScore + c.totalScore
    sentimentTrend := ex.sentimentTrend ++ c.sentimentTrend }

/-- The pure core of `saveConsolidatedAnalysis` (`src/server/storage.ts`
lines 119-171): `none` models `entityAnalysisData = null` when no per-source
analysis is given.  `totalMentions`/`totalScore` are summed from the
per-source summaries (NOT recomputed from the merged chains), while
`totalEntities` and the breakdown are computed from the merged chain list. -/
def consolidateEntityData (query : String)
    (entityAnalyses : List SubredditEntityAnalysis) :
    Option ConsolidatedEntityData :=
  if entityAnalyses.length = 0 then none
  else
    let allEntityChains := entityAnalyses.flatMap fun a => a.entityChains
    let entityMap := allEntityChains.foldl
      (assocStep (fun c => entityKey c.entity) initialConsolidated addChain) []
    let consolidatedChains := ((entityMap.map Prod.snd).mergeSort
      fun a b => decide (b.totalScore ≤ a.totalScore))
    some
      { query := query
        totalEntities := consolidatedChains.length
        totalMentions := (entityAnalyses.map fun a => a.totalMentions).sum
        totalScore := (entityAnalyses.map fun a => a.totalScore).sum
        entityBreakdown :=
          { persons := (consolidatedChains.filter
              fun c => c.entity.type == EntityType.PERSON).length
            organizations := (consolidatedChains.filter
              fun c => c.entity.type == EntityType.ORGANIZATION).length
            locations := (consolidatedChains.filter
              fun c => c.entity.type == EntityType.LOCATION).length }
        entityChains := consolidatedChains }

section AssocFoldDefs

variable {κ β α : Type} [DecidableEq κ]

/-- The chains (or mentions) of `P` that share the key `k`, in `P`'s order. -/
def groupOf (keyOf : α → κ) (P : List α) (k : κ) : List α :=
  P.filter fun x => keyOf x == k

/-- The record the keyed loop produces for one group: the first element
seeds the fresh record, then every group element (the first included) is
folded in. -/
def mergedOf (init : α → β) (add : β → α → β) : List α → Option β
  | [] => none
  | x :: xs => some ((x :: xs).foldl add (init x))

end AssocFoldDefs

def c5Entity : Entity := ⟨"OpenAI", "openai", .ORGANIZATION, 0, 6, 1⟩

def c5Sentiment : NerSentiment := ⟨0, 0, 1, 0, "neutral"⟩

/-- Two mentions of the same entity in two DIFFERENT posts (`p1` and `p2`)
whose hosting comments happen to share the score 5. -/
def c5m1 : EntityMention := ⟨c5Entity, c5Sentiment, 5, "2024-01-01", "p1"⟩

def c5m2 : EntityMention := ⟨c5Entity, c5Sentiment, 5, "2024-01-02", "p2"⟩

def c6m1 : EntityMention := ⟨c5Entity, c5Sentiment, 0, "2024-01-01", "p1"⟩

def c6m2 : EntityMention := ⟨c5Entity, c5Sentiment, -3, "2024-01-02", "p2"⟩

def c6Chain : EntityChain :=
  { entity := c5Entity
    totalMentions := 2
    uniquePosts := 2
    totalScore := -3
    sentimentTrend :=
      [⟨"2024-01-01", c5Sentiment, 0⟩, ⟨"2024-01-02", c5Sentiment, -3⟩]
    averageSentiment := ⟨0, 0, 0, 0, "neutral"⟩ }

/-- The spec's weighted mean over ALL events of a chain group, each field
weighted by `score_i / sum(scores)` (negative-score events included), with
the label classified from the weighted compound.  Written from the spec's
words, to be compared with the averages the two builders compute. -/
def specNerWeightedAvg (ts : List TrendEntry) : NerSentiment :=
  let S : ℤ := (ts.map fun t => t.score).sum
  { positivity := (ts.map fun t =>
      t.sentiment.positivity * ((t.score : ℚ) / (S : ℚ))).sum
    negativity := (ts.map fun t =>
      t.sentiment.negativity * ((t.score : ℚ) / (S : ℚ))).sum
    neutrality := (ts.map fun t =>
      t.sentiment.neutrality * ((t.score : ℚ) / (S : ℚ))).sum
    compound := (ts.map fun t =>
      t.sentiment.compound * ((t.score : ℚ) / (S : ℚ))).sum
    overall := classifySentiment ((ts.map fun t =>
      t.sentiment.compound * ((t.score : ℚ) / (S : ℚ))).sum) }

/-- The same spec formula for the server chain, whose events carry the
scores in `sentiment.original`. -/
def specServerWeightedScores (ts : List ServerTrendEntry) : SentimentScores :=
  let S : ℤ := (ts.map fun t => t.score).sum
  { neg := (ts.map fun t =>
      t.sentiment.original.neg * ((t.score : ℚ) / (S : ℚ))).sum
    neu := (ts.map fun t =>
      t.sentiment.original.neu * ((t.score : ℚ) / (S : ℚ))).sum
    pos := (ts.map fun t =>
      t.sentiment.original.pos * ((t.score : ℚ) / (S : ℚ))).sum
    compound := (ts.map fun t =>
      t.sentiment.original.compound * ((t.score : ℚ) / (S : ℚ))).sum }

/-- A server mention whose hosting comment has score 0, so its chain's score
sum is `0 ≤ 0` and the `else` branch of the average computation is taken. -/
def c7Sentiment : SentimentAnalysis :=
  { original := { compound := 1, pos := 1, neu := 0, neg := 0 }
    overall := { compound := 1, pos := 1, neu := 0, neg := 0 }
    label := "positive" }

def c7m0 : ServerEntityMention := ⟨c5Entity, c7Sentiment, 0, "2024-01-01", "p1"⟩

/-- The chain the server builder produces from `[c7m0]`. -/
def c7Chain : ServerEntityChain :=
  { entity := c5Entity
    totalMentions := 1
    uniquePosts := 1
    totalScore := 0
    sentimentTrend := [⟨"2024-01-01", c7Sentiment, 0⟩]
    averageSentiment := serverNeutralSentiment }

def c4Entity : Entity := ⟨"Tesla", "tesla", .ORGANIZATION, 0, 5, 1⟩

def c4SentA : SentimentAnalysis :=
  { original := { compound := 1, pos := 1, neu := 0, neg := 0 }
    overall := { compound := 1, pos := 1, neu := 0, neg := 0 }
    label := "positive" }

def c4SentB : SentimentAnalysis :=
  { original := { compound := -1, pos := 0, neu := 0, neg := 1 }
    overall := { compound := -1, pos := 0, neu := 0, neg := 1 }
    label := "negative" }

/-- The same entity in two sources, with per-source `totalScore` 10 and 15
and distinct already-computed averages. -/
def c4Chain1 : ServerEntityChain :=
  { entity := c4Entity, totalMentions := 1, uniquePosts := 1, totalScore := 10
    sentimentTrend := [⟨"2024-01-01", c4SentA, 10⟩]
    averageSentiment := c4SentA }

def c4Chain2 : ServerEntityChain :=
  { entity := c4Entity, totalMentions := 1, uniquePosts := 1, totalScore := 15
    sentimentTrend := [⟨"2024-01-02", c4SentB, 15⟩]
    averageSentiment := c4SentB }

def c4Analysis1 : SubredditEntityAnalysis :=
  ⟨"r1", "q", 1, 1, 10, ⟨0, 1, 0⟩, [c4Chain1]⟩

def c4Analysis2 : SubredditEntityAnalysis :=
  ⟨"r2", "q", 1, 1, 15, ⟨0, 1, 0⟩, [c4Chain2]⟩

/-- The merged chain: `10 + 15 = 25`, concatenated trend, and the FIRST
source's average `c4SentA`. -/
def c4Merged : ConsolidatedChain :=
  { entity := c4Entity, totalMentions := 2, totalScore := 25
    sentimentTrend := [⟨"2024-01-01", c4SentA, 10⟩, ⟨"2024-01-02", c4SentB, 15⟩]
    averageSentiment := c4SentA }

def c4Out : ConsolidatedEntityData := ⟨"q", 1, 2, 25, ⟨0, 1, 0⟩, [c4Merged]⟩

lemma simpleFold_eq (scorer : Scorer) :
    ∀ (l : List RedditComment) (acc : SentimentScores),
      l.foldl
        (fun (acc : SentimentScores) comment =>
          let sentiment := scorer comment.text
          { compound := acc.compound + sentiment.compound
            pos := acc.pos + sentiment.pos
            neu := acc.neu + sentiment.neu
            neg := acc.neg + sentiment.neg })
        acc =
      { compound := acc.compound + (l.map fun c => (scorer c.text).compound).sum
        pos := acc.pos + (l.map fun c => (scorer c.text).pos).sum
        neu := acc.neu + (l.map fun c => (scorer c.text).neu).sum
        neg := acc.neg + (l.map fun c => (scorer c.text).neg).sum } := by
  intro l
  induction l with
  | nil => intro acc; simp
  | cons c cs ih =>
      intro acc
      simp only [List.foldl_cons, List.map_cons, List.sum_cons, ih]
      apply SentimentScores.ext <;> simp <;> ring

lemma weightedFold_eq (scorer : Scorer) :
    ∀ (l : List RedditComment) (acc : SentimentScores × ℚ),
      l.foldl
        (fun (acc : SentimentScores × ℚ) comment =>
          let sentiment := scorer comment.text
          ({ compound := acc.1.compound + sentiment.compound * (comment.score : ℚ)
             pos := acc.1.pos + sentiment.pos * (comment.score : ℚ)
             neu := acc.1.neu + sentiment.neu * (comment.score : ℚ)
             neg := acc.1.neg + sentiment.neg * (comment.score : ℚ) },
           acc.2 + (comment.score : ℚ)))
        acc =
      ({ compound := acc.1.compound + (l.map fun c => (scorer c.text).compound * (c.score : ℚ)).sum
         pos := acc.1.pos + (l.map fun c => (scorer c.text).pos * (c.score : ℚ)).sum
         neu := acc.1.neu + (l.map fun c => (scorer c.text).neu * (c.score : ℚ)).sum
         neg := acc.1.neg + (l.map fun c => (scorer c.text).neg * (c.score : ℚ)).sum },
       acc.2 + (l.map fun c => (c.score : ℚ)).sum) := by
  intro l
  induction l with
  | nil => intro acc; simp
  | cons c cs ih =>
      intro acc
      simp only [List.foldl_cons, List.map_cons, List.sum_cons, ih]
      refine Prod.ext ?_ ?_
      · apply SentimentScores.ext <;> simp <;> ring
      · simp; ring

/-- The code's weighted average coincides with the specification's two-tier
formulation on every input. -/
lemma weightedAverage_eq_spec (scorer : Scorer) (comments : List RedditComment) :
    calculateWeightedAverageSentiment scorer comments =
      specWeightedAverage scorer comments := by
  by_cases h : comments = []
  · subst h; rfl
  · have hlen : ¬ comments.length = 0 := by simpa using h
    have hie : comments.isEmpty = false := by simp [List.isEmpty_iff, h]
    unfold calculateWeightedAverageSentiment specWeightedAverage
    simp only [hlen, if_false, hie, Bool.false_eq_true]
    by_cases hp : (comments.filter fun c => 0 < c.score) = []
    · have hpl : (comments.filter fun c => 0 < c.score).length = 0 := by simp [hp]
      have hpe : (comments.filter fun c => 0 < c.score).isEmpty = true := by
        simp [hp]
      simp only [hpl, if_true, hpe, simpleFold_eq]
      ext <;> simp
    · have hpl : ¬ (comments.filter fun c => 0 < c.score).length = 0 := by
        simpa using hp
      have hpe : (comments.filter fun c => 0 < c.score).isEmpty = false := by
        simp [List.isEmpty_iff, hp]
      simp only [hpl, if_false, hpe, Bool.false_eq_true, weightedFold_eq]
      ext <;> simp

lemma filter_map_stripReplies (p : RedditComment → Bool)
    (hp : ∀ c, p (c.stripReplies) = p c) (l : List RedditComment) :
    (l.map RedditComment.stripReplies).filter p =
      (l.filter p).map RedditComment.stripReplies := by
  induction l with
  | nil => simp
  | cons c cs ih =>
      by_cases h : p c = true
      · simp [List.filter_cons, hp, h, ih]
      · simp only [Bool.not_eq_true] at h
        simp [List.filter_cons, hp, h, ih]

lemma stripReplies_text (c : RedditComment) :
    c.stripReplies.text = c.text := by
  cases c; rfl

lemma stripReplies_score (c : RedditComment) :
    c.stripReplies.score = c.score := by
  cases c; rfl

/-- `calculateWeightedAverageSentiment` reads only the `text` and `score` of
the comments in the list handed to it, never their `replies`: removing every
nested reply leaves the aggregate unchanged. -/
lemma weightedAverage_stripReplies (scorer : Scorer) (l : List RedditComment) :
    calculateWeightedAverageSentiment scorer (l.map RedditComment.stripReplies) =
      calculateWeightedAverageSentiment scorer l := by
  have hscore : ∀ c : RedditComment,
      (decide (0 < c.stripReplies.score)) = (decide (0 < c.score)) := by
    intro c; rw [stripReplies_score]
  rw [weightedAverage_eq_spec, weightedAverage_eq_spec]
  unfold specWeightedAverage
  rw [filter_map_stripReplies _ hscore]
  have hie : (l.map RedditComment.stripReplies).isEmpty = l.isEmpty := by
    cases l <;> rfl
  rw [hie]
  simp [List.map_map, Function.comp_def, stripReplies_text, stripReplies_score]

lemma sum_map_le_sum_map (l : List RedditComment) (f g : RedditComment → ℚ)
    (h : ∀ c ∈ l, f c ≤ g c) : (l.map f).sum ≤ (l.map g).sum := by
  induction l with
  | nil => simp
  | cons c cs ih =>
      simp only [List.map_cons, List.sum_cons]
      have h1 := h c (by simp)
      have h2 := ih fun x hx => h x (by simp [hx])
      linarith

lemma sum_map_neg (l : List RedditComment) (f : RedditComment → ℚ) :
    (l.map fun c => -(f c)).sum = -((l.map f).sum) := by
  induction l with
  | nil => simp
  | cons c cs ih => simp only [List.map_cons, List.sum_cons, ih]; ring

lemma length_cast_eq_sum_map_one (l : List RedditComment) :
    ((l.length : ℚ)) = (l.map fun _ => (1 : ℚ)).sum := by
  induction l with
  | nil => simp
  | cons c cs ih =>
      simp only [List.map_cons, List.sum_cons, List.length_cons]
      push_cast
      rw [ih]
      ring

/-- A quotient `s / w` of a sum bounded by `±w` lies in `[-1, 1]`. -/
lemma div_bounds {s w : ℚ} (hw : 0 < w) (hlow : -w ≤ s) (hhigh : s ≤ w) :
    -1 ≤ s / w ∧ s / w ≤ 1 := by
  constructor
  · rw [le_div_iff hw]; linarith
  · rw [div_le_one hw]; exact hhigh

/-- Core boundedness fact behind claim C10, stated over the spec form. -/
lemma weightedAverage_compound_bounds (scorer : Scorer)
    (comments : List RedditComment)
    (h : ∀ c ∈ comments, -1 ≤ (scorer c.text).compound ∧
        (scorer c.text).compound ≤ 1) :
    -1 ≤ (calculateWeightedAverageSentiment scorer comments).compound ∧
      (calculateWeightedAverageSentiment scorer comments).compound ≤ 1 := by
  rw [weightedAverage_eq_spec]
  unfold specWeightedAverage
  by_cases hnil : comments = []
  · simp [hnil, zeroScores]
  · have hie : comments.isEmpty = false := by simp [List.isEmpty_iff, hnil]
    simp only [hie, Bool.false_eq_true, if_false]
    by_cases hp : (comments.filter fun c => 0 < c.score) = []
    · have hpe : (comments.filter fun c => 0 < c.score).isEmpty = true := by
        simp [hp]
      simp only [hpe, if_true]
      have hlenpos : (0 : ℚ) < (comments.length : ℚ) := by
        have : comments.length ≠ 0 := by simpa using hnil
        exact_mod_cast Nat.pos_of_ne_zero this
      have hhigh : (comments.map fun c => (scorer c.text).compound).sum ≤
          (comments.length : ℚ) := by
        rw [length_cast_eq_sum_map_one]
        exact sum_map_le_sum_map _ _ _ fun c hc => (h c hc).2
      have hlow : -((comments.length : ℚ)) ≤
          (comments.map fun c => (scorer c.text).compound).sum := by
        rw [length_cast_eq_sum_map_one, ← sum_map_neg]
        exact sum_map_le_sum_map _ _ _ fun c hc => by
          have := (h c hc).1; linarith
      exact div_bounds hlenpos hlow hhigh
    · have hpe : (comments.filter fun c => 0 < c.score).isEmpty = false := by
        simp [List.isEmpty_iff, hp]
      simp only [hpe, Bool.false_eq_true, if_false]
      set P := comments.filter fun c => 0 < c.score with hP
      have hmemP : ∀ c ∈ P, 0 < c.score ∧ c ∈ comments := by
        intro c hc
        rw [hP, List.mem_filter] at hc
        exact ⟨by simpa using hc.2, hc.1⟩
      have hwpos : (0 : ℚ) < (P.map fun c => (c.score : ℚ)).sum := by
        apply List.sum_pos
        · intro x hx
          rcases List.mem_map.1 hx with ⟨c, hc, rfl⟩
          exact_mod_cast (hmemP c hc).1
        · simpa using hp
      have hhigh : (P.map fun c => (scorer c.text).compound * (c.score : ℚ)).sum ≤
          (P.map fun c => (c.score : ℚ)).sum := by
        apply sum_map_le_sum_map
        intro c hc
        have h1 := (h c (hmemP c hc).2).2
        have h2 : (0 : ℚ) < (c.score : ℚ) := by exact_mod_cast (hmemP c hc).1
        nlinarith
      have hlow : -((P.map fun c => (c.score : ℚ)).sum) ≤
          (P.map fun c => (scorer c.text).compound * (c.score : ℚ)).sum := by
        rw [← sum_map_neg]
        apply sum_map_le_sum_map
        intro c hc
        have h1 := (h c (hmemP c hc).2).1
        have h2 : (0 : ℚ) < (c.score : ℚ) := by exact_mod_cast (hmemP c hc).1
        nlinarith
      exact div_bounds hwpos hlow hhigh

/-- Claim C1 is false on the code: for the discussion whose single root
comment (score 1, neutral sentiment) carries one nested reply (score 100,
compound 1), `analyzeRedditData` reports discussion-level sentiment computed
from the root only (compound 0), while `weightedAverage` over the flattened
tree would give compound 100/101.  Nested replies are not part of the
discussion-level aggregate. -/
theorem claim_C1_counterexample :
    ((analyzeRedditData exScorer exData).discussions.map fun d => d.sentiment.original)
      ≠ [calculateWeightedAverageSentiment exScorer (flattenList exDisc.comments)] := by
  have hcode : ((analyzeRedditData exScorer exData).discussions.map
      fun d => d.sentiment.original) = [⟨0, 0, 1, 0⟩] := by
    simp [analyzeRedditData, exData, exDisc, exRoot, exReply, exScorer,
      calculateWeightedAverageSentiment, RedditComment.score,
      RedditComment.text]
  have hflat : flattenList exDisc.comments = [exRoot, exReply] := by
    simp [exDisc, exRoot, exReply, flattenList, RedditComment.flatten]
  have hspec : calculateWeightedAverageSentiment exScorer
      (flattenList exDisc.comments) = ⟨100/101, 100/101, 1/101, 0⟩ := by
    rw [hflat]
    simp [calculateWeightedAverageSentiment, exRoot, exReply, exScorer,
      RedditComment.score, RedditComment.text]
    norm_num
  rw [hcode, hspec]
  intro h
  have := List.head_eq_of_cons_eq h
  rw [SentimentScores.mk.injEq] at this
  norm_num at this

/-- Claim C1, amended to what the code does: discussion-level sentiment is
`weightedAverage` of the discussion's ROOT comments only, and source-level
sentiment is `weightedAverage` of the concatenation of all root comments —
the reply trees below the roots never influence either aggregate (stripping
every nested reply leaves both aggregates unchanged), even though
per-comment sentiment is assigned recursively to every nested reply. -/
theorem claim_C1_roots_only_aggregation (scorer : Scorer) (data : RedditData) :
    ((analyzeRedditData scorer data).discussions.map fun d => d.sentiment.original)
        = (data.discussions.map fun d =>
            calculateWeightedAverageSentiment scorer d.comments)
      ∧ (analyzeRedditData scorer data).sentiment.original
        = calculateWeightedAverageSentiment scorer
            (data.discussions.flatMap fun d => d.comments)
      ∧ ((analyzeRedditData scorer (stripNestedReplies data)).discussions.map
            fun d => d.sentiment.original)
        = ((analyzeRedditData scorer data).discussions.map
            fun d => d.sentiment.original)
      ∧ (analyzeRedditData scorer (stripNestedReplies data)).sentiment.original
        = (analyzeRedditData scorer data).sentiment.original := by
  refine ⟨?_, rfl, ?_, ?_⟩
  · simp [analyzeRedditData]
  · simp [analyzeRedditData, stripNestedReplies, weightedAverage_stripReplies]
  · simp only [analyzeRedditData, stripNestedReplies]
    have : ((data.discussions.map fun d =>
        { d with comments := d.comments.map RedditComment.stripReplies }).flatMap
          fun d => d.comments) =
        ((data.discussions.flatMap fun d => d.comments).map
          RedditComment.stripReplies) := by
      induction data.discussions with
      | nil => simp
      | cons d ds ih => simp [ih]
    simp [this, weightedAverage_stripReplies]

/-- Claim C2: `calculateWeightedAverageSentiment` implements the two-tier
policy exactly as specified — empty list gives the zero vector; with at
least one positively scored comment each field is
`sum(field_i * score_i) / sum(score_i)` over ONLY the positive-score
comments (so comments with score ≤ 0 contribute nothing, however extreme
their sentiment); with no positively scored comment each field is the
unweighted arithmetic mean over all comments. -/
theorem claim_C2_two_tier_policy (scorer : Scorer) (comments : List RedditComment) :
    calculateWeightedAverageSentiment scorer comments =
      specWeightedAverage scorer comments :=
  weightedAverage_eq_spec scorer comments

/-- Claim C9 is false on the code: `analyzeCommentSentiment` passes the
comment text to the polarity scorer unconditionally.  With a scorer that
returns a non-zero vector on the empty string, a comment with empty text
does NOT get the zero vector, so the claimed short-circuit (zero vector
without invoking the scorer) does not exist. -/
theorem claim_C9_counterexample :
    (RedditComment.mk "" 1 []).text = ""
      ∧ (analyzeCommentSentiment extremeScorer (.mk "" 1 [])).original
          ≠ zeroScores := by
  decide

/-- Claim C9, amended: the code has no empty-text short-circuit; it always
invokes the scorer on `comment.text`.  Under the assumption that the scorer
itself maps empty or whitespace-only text (every character a whitespace
character, the empty string included) to the zero vector — which the real
VADER scorer does — every such comment receives the neutral zero vector with
label "neutral". -/
theorem claim_C9_scorer_dependent_neutrality (scorer : Scorer)
    (comment : RedditComment)
    (hscorer : ∀ t : String, t.data.all Char.isWhitespace = true →
      scorer t = zeroScores)
    (hc : comment.text.data.all Char.isWhitespace = true) :
    analyzeCommentSentiment scorer comment =
      ⟨zeroScores, zeroScores, "neutral"⟩ := by
  unfold analyzeCommentSentiment
  rw [hscorer _ hc]
  simp only [zeroScores, getSentimentLabel]
  norm_num

/-- Witness for the amended C9 at a concrete scorer and comment. -/
theorem claim_C9_witness :
    analyzeCommentSentiment (fun _ => zeroScores) (.mk "" 1 []) =
      ⟨zeroScores, zeroScores, "neutral"⟩ :=
  claim_C9_scorer_dependent_neutrality (fun _ => zeroScores) (.mk "" 1 [])
    (fun _ _ => rfl) (by decide)

/-- Claim C10: if every per-comment compound produced by the scorer lies in
`[-1, 1]`, then the compound of `calculateWeightedAverageSentiment` lies in
`[-1, 1]` as well — the weighted branch and the unweighted fallback are both
convex combinations, and the empty case returns 0. -/
theorem claim_C10_compound_bounded (scorer : Scorer)
    (comments : List RedditComment)
    (h : ∀ c ∈ comments, -1 ≤ (scorer c.text).compound ∧
        (scorer c.text).compound ≤ 1) :
    -1 ≤ (calculateWeightedAverageSentiment scorer comments).compound ∧
      (calculateWeightedAverageSentiment scorer comments).compound ≤ 1 :=
  weightedAverage_compound_bounds scorer comments h

/-- Witness for C10 at a concrete scorer and comment list covering the
positive-score weighted branch. -/
theorem claim_C10_witness :
    -1 ≤ (calculateWeightedAverageSentiment (fun _ => ⟨1/2, 1, 0, 0⟩)
        [RedditComment.mk "a" 2 [], RedditComment.mk "b" (-1) []]).compound ∧
      (calculateWeightedAverageSentiment (fun _ => ⟨1/2, 1, 0, 0⟩)
        [RedditComment.mk "a" 2 [], RedditComment.mk "b" (-1) []]).compound ≤ 1 :=
  claim_C10_compound_bounded _ _ (by intro c hc; constructor <;> norm_num)

lemma idIndex_lt {cs : List RawComment} {s : String} {j : ℕ}
    (h : idIndex cs s = some j) : j < cs.length := by
  unfold idIndex at h
  have hmem := List.mem_of_mem_getLast? (by rw [h]; rfl)
  have := List.mem_filter.1 hmem
  simpa using this.1

lemma parentIdx_lt {cs : List RawComment} {i j : ℕ}
    (h : parentIdx cs i = some j) : j < cs.length := by
  unfold parentIdx at h
  rcases hp : (cAt cs i).parentId with _ | pid
  · rw [hp] at h; cases h
  · rw [hp] at h
    dsimp only at h
    by_cases h1 : pid = ""
    · simp [h1] at h
    · rw [if_neg h1] at h
      by_cases h2 : startsWithT3 pid = true
      · simp [h2] at h
      · rw [if_neg h2] at h
        rcases hq : idIndex cs (stripT1 pid) with _ | j'
        · rw [hq] at h; cases h
        · rw [hq] at h
          cases h
          exact idIndex_lt hq

lemma stepsToNone_stable {cs : List RawComment} :
    ∀ {f f' k m : ℕ}, stepsToNone cs f k = some m → f ≤ f' →
      stepsToNone cs f' k = some m := by
  intro f
  induction f with
  | zero => intro f' k m h; cases h
  | succ f ih =>
      intro f' k m h hle
      obtain ⟨f'', rfl⟩ : ∃ f'', f' = f'' + 1 :=
        ⟨f' - 1, by omega⟩
      unfold stepsToNone at h ⊢
      rcases hp : parentIdx cs k with _ | j
      · rw [hp] at h
        exact h
      · rw [hp] at h
        dsimp only at h ⊢
        rcases hq : stepsToNone cs f j with _ | m'
        · rw [hq] at h; cases h
        · rw [hq] at h
          rw [ih hq (by omega)]
          exact h

lemma stepsToNone_bounds {cs : List RawComment} :
    ∀ {f k m : ℕ}, stepsToNone cs f k = some m → 1 ≤ m ∧ m ≤ f := by
  intro f
  induction f with
  | zero => intro k m h; cases h
  | succ f ih =>
      intro k m h
      unfold stepsToNone at h
      rcases hp : parentIdx cs k with _ | j
      · rw [hp] at h
        cases h
        omega
      · rw [hp] at h
        dsimp only at h
        rcases hq : stepsToNone cs f j with _ | m'
        · rw [hq] at h; cases h
        · rw [hq] at h
          dsimp only [Option.map] at h
          cases h
          have := ih hq
          omega

lemma rank_spec {cs : List RawComment} (hA : Acyclic cs) {k : ℕ}
    (hk : k < cs.length) :
    stepsToNone cs cs.length k = some (rank cs k) := by
  have := hA k hk
  rcases hq : stepsToNone cs cs.length k with _ | m
  · rw [hq] at this; cases this
  · unfold rank
    rw [hq]
    rfl

lemma rank_bounds {cs : List RawComment} (hA : Acyclic cs) {k : ℕ}
    (hk : k < cs.length) : 1 ≤ rank cs k ∧ rank cs k ≤ cs.length :=
  stepsToNone_bounds (rank_spec hA hk)

lemma rank_root {cs : List RawComment} (hA : Acyclic cs) {r : ℕ}
    (hr : r < cs.length) (hroot : parentIdx cs r = none) :
    rank cs r = 1 := by
  have hs := rank_spec hA hr
  obtain ⟨n', hn'⟩ : ∃ n', cs.length = n' + 1 := ⟨cs.length - 1, by omega⟩
  rw [hn'] at hs
  unfold stepsToNone at hs
  rw [hroot] at hs
  dsimp only at hs
  exact (Option.some.inj hs).symm

lemma rank_child {cs : List RawComment} (hA : Acyclic cs) {k j : ℕ}
    (hk : k < cs.length) (hp : parentIdx cs k = some j) :
    rank cs j + 1 = rank cs k := by
  have hs := rank_spec hA hk
  obtain ⟨n', hn'⟩ : ∃ n', cs.length = n' + 1 := ⟨cs.length - 1, by omega⟩
  rw [hn'] at hs
  unfold stepsToNone at hs
  rw [hp] at hs
  dsimp only at hs
  rcases hq : stepsToNone cs n' j with _ | m
  · rw [hq] at hs; cases hs
  · rw [hq] at hs
    have hq' : stepsToNone cs cs.length j = some m :=
      stepsToNone_stable hq (by omega)
    have hrj : rank cs j = m := by unfold rank; rw [hq']; rfl
    dsimp only [Option.map] at hs
    have := Option.some.inj hs
    omega

lemma reachesIn_mono {cs : List RawComment} :
    ∀ {f f' k i : ℕ}, reachesIn cs f k i = true → f ≤ f' →
      reachesIn cs f' k i = true := by
  intro f
  induction f with
  | zero => intro f' k i h; cases h
  | succ f ih =>
      intro f' k i h hle
      obtain ⟨f'', rfl⟩ : ∃ f'', f' = f'' + 1 := ⟨f' - 1, by omega⟩
      unfold reachesIn at h ⊢
      rcases Bool.or_eq_true_iff.1 h with h1 | h2
      · rw [h1]; rfl
      · rcases hp : parentIdx cs k with _ | j
        · rw [hp] at h2; dsimp only at h2; cases h2
        · rw [hp] at h2
          dsimp only at h2 ⊢
          rw [ih h2 (by omega)]
          simp

lemma reachesIn_self {cs : List RawComment} {f k : ℕ} (hf : 1 ≤ f) :
    reachesIn cs f k k = true := by
  obtain ⟨f', rfl⟩ : ∃ f', f = f' + 1 := ⟨f - 1, by omega⟩
  unfold reachesIn
  simp

lemma reachesIn_lt {cs : List RawComment} :
    ∀ {f k i : ℕ}, reachesIn cs f k i = true → k < cs.length →
      i < cs.length := by
  intro f
  induction f with
  | zero => intro k i h; cases h
  | succ f ih =>
      intro k i h hk
      unfold reachesIn at h
      rcases Bool.or_eq_true_iff.1 h with h1 | h2
      · rwa [← eq_of_beq h1]
      · rcases hp : parentIdx cs k with _ | j
        · rw [hp] at h2; dsimp only at h2; cases h2
        · rw [hp] at h2
          dsimp only at h2
          exact ih h2 (parentIdx_lt hp)

lemma reachesIn_rank {cs : List RawComment} (hA : Acyclic cs) :
    ∀ {f k i : ℕ}, k < cs.length → reachesIn cs f k i = true →
      i = k ∨ rank cs i < rank cs k := by
  intro f
  induction f with
  | zero => intro k i _ h; cases h
  | succ f ih =>
      intro k i hk h
      unfold reachesIn at h
      rcases Bool.or_eq_true_iff.1 h with h1 | h2
      · exact Or.inl (eq_of_beq h1).symm
      · rcases hp : parentIdx cs k with _ | j
        · rw [hp] at h2; dsimp only at h2; cases h2
        · rw [hp] at h2
          dsimp only at h2
          right
          have hj : j < cs.length := parentIdx_lt hp
          have hrk := rank_child hA hk hp
          rcases ih hj h2 with rfl | hlt <;> omega

lemma reachesIn_rank_le {cs : List RawComment} (hA : Acyclic cs) {f k i : ℕ}
    (hk : k < cs.length) (h : reachesIn cs f k i = true) :
    rank cs i ≤ rank cs k := by
  rcases reachesIn_rank hA hk h with rfl | hlt <;> omega

lemma reachesIn_unique {cs : List RawComment} (hA : Acyclic cs) :
    ∀ {f f' k c₁ c₂ : ℕ}, k < cs.length →
      reachesIn cs f k c₁ = true → reachesIn cs f' k c₂ = true →
      rank cs c₁ = rank cs c₂ → c₁ = c₂ := by
  intro f
  induction f with
  | zero => intro f' k c₁ c₂ _ h; cases h
  | succ f ih =>
      intro f' k c₁ c₂ hk h1 h2 hrank
      unfold reachesIn at h1
      rcases Bool.or_eq_true_iff.1 h1 with he | hs
      · have hke : k = c₁ := eq_of_beq he
        subst hke
        obtain ⟨f'', rfl⟩ : ∃ f'', f' = f'' + 1 :=
          ⟨f' - 1, by rcases f' with _ | f'' <;> [cases h2; omega]⟩
        unfold reachesIn at h2
        rcases Bool.or_eq_true_iff.1 h2 with he2 | hs2
        · exact eq_of_beq he2
        · rcases hp : parentIdx cs k with _ | j
          · rw [hp] at hs2; dsimp only at hs2; cases hs2
          · rw [hp] at hs2
            dsimp only at hs2
            have hj : j < cs.length := parentIdx_lt hp
            have h1le : rank cs c₂ ≤ rank cs j := reachesIn_rank_le hA hj hs2
            have h2lt := rank_child hA hk hp
            omega
      · rcases hp : parentIdx cs k with _ | j
        · rw [hp] at hs; dsimp only at hs; cases hs
        · rw [hp] at hs
          dsimp only at hs
          have hj : j < cs.length := parentIdx_lt hp
          obtain ⟨f'', rfl⟩ : ∃ f'', f' = f'' + 1 :=
            ⟨f' - 1, by rcases f' with _ | f'' <;> [cases h2; omega]⟩
          unfold reachesIn at h2
          rcases Bool.or_eq_true_iff.1 h2 with he2 | hs2
          · have hke : k = c₂ := eq_of_beq he2
            subst hke
            have h1le : rank cs c₁ ≤ rank cs j := reachesIn_rank_le hA hj hs
            have h2lt := rank_child hA hk hp
            omega
          · rw [hp] at hs2
            dsimp only at hs2
            exact ih hj hs hs2 hrank

lemma reachesIn_norm {cs : List RawComment} (hA : Acyclic cs) :
    ∀ {f k i : ℕ}, k < cs.length → reachesIn cs f k i = true →
      reachesIn cs cs.length k i = true := by
  have key : ∀ (f : ℕ) {k i : ℕ}, k < cs.length →
      reachesIn cs f k i = true → reachesIn cs (rank cs k) k i = true := by
    intro f
    induction f with
    | zero => intro k i _ h; cases h
    | succ f ih =>
        intro k i hk h
        unfold reachesIn at h
        rcases Bool.or_eq_true_iff.1 h with he | hs
        · have hke : k = i := eq_of_beq he
          subst hke
          exact reachesIn_self (rank_bounds hA hk).1
        · rcases hp : parentIdx cs k with _ | j
          · rw [hp] at hs; dsimp only at hs; cases hs
          · rw [hp] at hs
            dsimp only at hs
            have hj : j < cs.length := parentIdx_lt hp
            have hrec := ih hj hs
            have hrk := rank_child hA hk hp
            obtain ⟨m, hm⟩ : ∃ m, rank cs k = m + 1 := ⟨rank cs j, hrk.symm⟩
            rw [hm]
            unfold reachesIn
            rw [hp]
            dsimp only
            have hmj : rank cs j = m := by omega
            rw [hmj] at hrec
            rw [hrec]
            simp
  intro f k i hk h
  exact reachesIn_mono (key f hk h) (rank_bounds hA hk).2

lemma reachesIn_last_step {cs : List RawComment} (hA : Acyclic cs) :
    ∀ {f k i : ℕ}, k < cs.length → k ≠ i → reachesIn cs f k i = true →
      ∃ c, c < cs.length ∧ parentIdx cs c = some i ∧
        reachesIn cs cs.length k c = true := by
  intro f
  induction f with
  | zero => intro k i _ _ h; cases h
  | succ f ih =>
      intro k i hk hne h
      unfold reachesIn at h
      rcases Bool.or_eq_true_iff.1 h with he | hs
      · exact absurd (eq_of_beq he) hne
      · rcases hp : parentIdx cs k with _ | j
        · rw [hp] at hs; dsimp only at hs; cases hs
        · rw [hp] at hs
          dsimp only at hs
          have hj : j < cs.length := parentIdx_lt hp
          by_cases hji : j = i
          · subst hji
            exact ⟨k, hk, hp, reachesIn_self (by omega)⟩
          · obtain ⟨c, hc1, hc2, hc3⟩ := ih hj hji hs
            refine ⟨c, hc1, hc2, ?_⟩
            have hstep : reachesIn cs (cs.length + 1) k c = true := by
              unfold reachesIn
              rw [hp]
              dsimp only
              rw [hc3]
              simp
            exact reachesIn_norm hA hk hstep

lemma reachesIn_compose_child {cs : List RawComment} (hA : Acyclic cs) :
    ∀ {f k c i : ℕ}, k < cs.length → parentIdx cs c = some i →
      reachesIn cs f k c = true → reachesIn cs cs.length k i = true := by
  have key : ∀ (f : ℕ) {k c i : ℕ}, k < cs.length → parentIdx cs c = some i →
      reachesIn cs f k c = true → reachesIn cs (f + 1) k i = true := by
    intro f
    induction f with
    | zero => intro k c i _ _ h; cases h
    | succ f ih =>
        intro k c i hk hpc h
        unfold reachesIn at h
        rcases Bool.or_eq_true_iff.1 h with he | hs
        · have hke : k = c := eq_of_beq he
          subst hke
          show reachesIn cs (f + 1 + 1) k i = true
          unfold reachesIn
          rw [hpc]
          dsimp only
          rw [reachesIn_self (by omega : 1 ≤ f + 1)]
          simp
        · rcases hp : parentIdx cs k with _ | j
          · rw [hp] at hs; dsimp only at hs; cases hs
          · rw [hp] at hs
            dsimp only at hs
            have hj : j < cs.length := parentIdx_lt hp
            have hstep := ih hj hpc hs
            show reachesIn cs (f + 1 + 1) k i = true
            unfold reachesIn
            rw [hp]
            dsimp only
            rw [hstep]
            simp
  intro f k c i hk hpc h
  exact reachesIn_norm hA hk (key f hk hpc h)

lemma sum_map_zero {α : Type} {l : List α} {f : α → ℕ}
    (h : ∀ c ∈ l, f c = 0) : (l.map f).sum = 0 := by
  induction l with
  | nil => rfl
  | cons a l ih =>
      simp only [List.map_cons, List.sum_cons]
      rw [h a (by simp), ih fun c hc => h c (by simp [hc])]

lemma sum_map_one {l : List ℕ} {f : ℕ → ℕ} (hnd : l.Nodup) {c₀ : ℕ}
    (hc₀ : c₀ ∈ l) (hone : f c₀ = 1)
    (hzero : ∀ c ∈ l, c ≠ c₀ → f c = 0) : (l.map f).sum = 1 := by
  induction l with
  | nil => cases hc₀
  | cons a l ih =>
      simp only [List.map_cons, List.sum_cons]
      rcases List.mem_cons.1 hc₀ with rfl | hmem
      · rw [hone]
        rw [sum_map_zero fun c hc =>
          hzero c (by simp [hc]) fun h => (List.nodup_cons.1 hnd).1 (h ▸ hc)]
      · rw [hzero a (by simp) fun h => (List.nodup_cons.1 hnd).1 (h ▸ hmem)]
        rw [ih (List.nodup_cons.1 hnd).2 hmem
          fun c hc hne => hzero c (by simp [hc]) hne]

lemma mem_childIndices {cs : List RawComment} {i c : ℕ} :
    c ∈ childIndices cs i ↔ c < cs.length ∧ parentIdx cs c = some i := by
  unfold childIndices
  simp [List.mem_filter, List.mem_range]

lemma mem_rootIndices {cs : List RawComment} {r : ℕ} :
    r ∈ rootIndices cs ↔ r < cs.length ∧ parentIdx cs r = none := by
  unfold rootIndices
  simp [List.mem_filter, List.mem_range]

lemma count_flattenIdx {cs : List RawComment} (hA : Acyclic cs) :
    ∀ (fuel i : ℕ), i < cs.length → cs.length + 1 ≤ fuel + rank cs i →
      ∀ k, (flattenIdx cs fuel i).count k =
        if k < cs.length ∧ reachesIn cs cs.length k i = true then 1 else 0 := by
  intro fuel
  induction fuel with
  | zero =>
      intro i hi hfuel k
      have := (rank_bounds hA hi).2
      omega
  | succ fuel ih =>
      intro i hi hfuel k
      have hchild : ∀ c ∈ childIndices cs i,
          c < cs.length ∧ parentIdx cs c = some i :=
        fun c hc => mem_childIndices.1 hc
      have hrankc : ∀ c ∈ childIndices cs i, rank cs c = rank cs i + 1 := by
        intro c hc
        have := rank_child hA (hchild c hc).1 (hchild c hc).2
        omega
      have hIH : ∀ c ∈ childIndices cs i,
          (flattenIdx cs fuel c).count k =
            if k < cs.length ∧ reachesIn cs cs.length k c = true
            then 1 else 0 := by
        intro c hc
        exact ih c (hchild c hc).1 (by have := hrankc c hc; omega) k
      show ((i :: (childIndices cs i).flatMap (flattenIdx cs fuel)).count k) = _
      rw [List.count_cons, List.count_flatMap]
      have hmapc :
          ((childIndices cs i).map (List.count k ∘ flattenIdx cs fuel)) =
          ((childIndices cs i).map fun c =>
            if k < cs.length ∧ reachesIn cs cs.length k c = true
            then 1 else 0) :=
        List.map_congr_left fun c hc => hIH c hc
      rw [hmapc]
      by_cases hk : k = i
      · subst hk
        have hzero : ∀ c ∈ childIndices cs k,
            (if k < cs.length ∧ reachesIn cs cs.length k c = true
             then 1 else 0) = 0 := by
          intro c hc
          rw [if_neg]
          rintro ⟨hkn, hreach⟩
          rcases reachesIn_rank hA hkn hreach with rfl | hlt
          · have := rank_child hA hkn (hchild c hc).2
            omega
          · have := hrankc c hc
            omega
        rw [sum_map_zero hzero]
        have hself : reachesIn cs cs.length k k = true :=
          reachesIn_self (by omega)
        simp [hi, hself]
      · have hne : (i == k) = false := by
          simp only [beq_eq_false_iff_ne, ne_eq]
          exact fun h => hk h.symm
        rw [hne]
        by_cases hkn : k < cs.length
        · by_cases hreach : reachesIn cs cs.length k i = true
          · obtain ⟨c₀, hc₀n, hc₀p, hc₀r⟩ :=
              reachesIn_last_step hA hkn hk hreach
            have hc₀mem : c₀ ∈ childIndices cs i :=
              mem_childIndices.2 ⟨hc₀n, hc₀p⟩
            have hsum :
                (((childIndices cs i).map fun c =>
                  if k < cs.length ∧ reachesIn cs cs.length k c = true
                  then 1 else 0)).sum = 1 := by
              apply sum_map_one
                (List.Nodup.filter _ (List.nodup_range _)) hc₀mem
              · rw [if_pos ⟨hkn, hc₀r⟩]
              · intro c hc hnec
                rw [if_neg]
                rintro ⟨_, hreachc⟩
                exact hnec (reachesIn_unique hA hkn hreachc hc₀r
                  (by rw [hrankc c hc, hrankc c₀ hc₀mem]))
            rw [hsum]
            simp [hkn, hreach]
          · have hzero : ∀ c ∈ childIndices cs i,
                (if k < cs.length ∧ reachesIn cs cs.length k c = true
                 then 1 else 0) = 0 := by
              intro c hc
              rw [if_neg]
              rintro ⟨_, hreachc⟩
              exact hreach
                (reachesIn_compose_child hA hkn (hchild c hc).2 hreachc)
            rw [sum_map_zero hzero]
            simp [hreach]
        · have hzero : ∀ c ∈ childIndices cs i,
              (if k < cs.length ∧ reachesIn cs cs.length k c = true
               then 1 else 0) = 0 := by
            intro c hc
            rw [if_neg]
            rintro ⟨h1, _⟩
            exact hkn h1
          rw [sum_map_zero hzero]
          simp [hkn]

lemma exists_root {cs : List RawComment} (hA : Acyclic cs) {k : ℕ}
    (hk : k < cs.length) :
    ∃ r, r < cs.length ∧ parentIdx cs r = none ∧
      reachesIn cs cs.length k r = true := by
  have key : ∀ (f : ℕ) {k : ℕ}, k < cs.length →
      (stepsToNone cs f k).isSome = true →
      ∃ r, r < cs.length ∧ parentIdx cs r = none ∧
        reachesIn cs f k r = true := by
    intro f
    induction f with
    | zero => intro k _ h; cases h
    | succ f ih =>
        intro k hk hsome
        unfold stepsToNone at hsome
        rcases hp : parentIdx cs k with _ | j
        · refine ⟨k, hk, hp, reachesIn_self (by omega)⟩
        · rw [hp] at hsome
          dsimp only at hsome
          have hj : j < cs.length := parentIdx_lt hp
          have hsome' : (stepsToNone cs f j).isSome = true := by
            rcases hq : stepsToNone cs f j with _ | m
            · rw [hq] at hsome; cases hsome
            · rfl
          obtain ⟨r, hr1, hr2, hr3⟩ := ih hj hsome'
          refine ⟨r, hr1, hr2, ?_⟩
          unfold reachesIn
          rw [hp]
          dsimp only
          rw [hr3]
          simp
  exact key cs.length hk (hA k hk)

lemma count_flattenedIndices {cs : List RawComment} (hA : Acyclic cs)
    (k : ℕ) :
    (flattenedIndices cs).count k = if k < cs.length then 1 else 0 := by
  unfold flattenedIndices
  rw [List.count_flatMap]
  have hroot : ∀ r ∈ rootIndices cs,
      r < cs.length ∧ parentIdx cs r = none :=
    fun r hr => mem_rootIndices.1 hr
  have hmapc : ((rootIndices cs).map
        (List.count k ∘ flattenIdx cs cs.length)) =
      ((rootIndices cs).map fun r =>
        if k < cs.length ∧ reachesIn cs cs.length k r = true
        then 1 else 0) := by
    apply List.map_congr_left
    intro r hr
    have h1 := (hroot r hr).1
    have h2 := rank_root hA h1 (hroot r hr).2
    exact count_flattenIdx hA cs.length r h1 (by omega) k
  rw [hmapc]
  by_cases hkn : k < cs.length
  · obtain ⟨r₀, hr₀n, hr₀p, hr₀r⟩ := exists_root hA hkn
    have hr₀mem : r₀ ∈ rootIndices cs := mem_rootIndices.2 ⟨hr₀n, hr₀p⟩
    have hsum : (((rootIndices cs).map fun r =>
        if k < cs.length ∧ reachesIn cs cs.length k r = true
        then 1 else 0)).sum = 1 := by
      apply sum_map_one (List.Nodup.filter _ (List.nodup_range _)) hr₀mem
      · rw [if_pos ⟨hkn, hr₀r⟩]
      · intro r hr hner
        rw [if_neg]
        rintro ⟨_, hreachr⟩
        refine hner (reachesIn_unique hA hkn hreachr hr₀r ?_)
        rw [rank_root hA (hroot r hr).1 (hroot r hr).2,
          rank_root hA hr₀n hr₀p]
    rw [hsum, if_pos hkn]
  · have hzero : ∀ r ∈ rootIndices cs,
        (if k < cs.length ∧ reachesIn cs cs.length k r = true
         then 1 else 0) = 0 := by
      intro r hr
      rw [if_neg]
      rintro ⟨h1, _⟩
      exact hkn h1
    rw [sum_map_zero hzero, if_neg hkn]

lemma count_range_eq (k n : ℕ) :
    (List.range n).count k = if k < n then 1 else 0 := by
  rcases Nat.lt_or_ge k n with h | h
  · simp [List.count_eq_one_of_mem (List.nodup_range n) (List.mem_range.2 h), h]
  · simp [List.count_eq_zero_of_not_mem, h, Nat.not_lt.2 h]

lemma flattenedIndices_perm {cs : List RawComment} (hA : Acyclic cs) :
    (flattenedIndices cs).Perm (List.range cs.length) := by
  rw [List.perm_iff_count]
  intro a
  rw [count_flattenedIndices hA, count_range_eq]

lemma map_cAt_range (cs : List RawComment) :
    (List.range cs.length).map (cAt cs) = cs := by
  induction cs with
  | nil => rfl
  | cons c cs ih =>
      show (List.range (cs.length + 1)).map (cAt (c :: cs)) = c :: cs
      rw [List.range_succ_eq_map]
      simp only [List.map_cons, List.map_map]
      refine congrArg₂ _ rfl ?_
      have hstep : ∀ a ∈ List.range cs.length,
          (cAt (c :: cs) ∘ Nat.succ) a = cAt cs a := fun a _ => rfl
      rw [List.map_congr_left hstep, ih]

/-- Claim C3 is false for arbitrary `parentId` values: with a self-referential
parent id the comment is pushed into its own `replies` (a cycle), the root
list is empty, and replies-traversal from the roots yields 0 of the 1 input
comments — the comment is dropped from the observable tree. -/
theorem claim_C3_counterexample :
    flattenedComments selfParent = [] ∧ selfParent.length = 1 := by
  constructor
  · rfl
  · rfl

/-- Claim C3, amended with the necessary acyclicity proviso: whenever the
input's parent references contain no cycle (in particular in every input
where parents genuinely refer to other comments, in any order, or to missing
ids), replies-traversal from the returned roots yields exactly the N input
comments, each exactly once, regardless of parent-reference order. -/
theorem claim_C3_tree_complete (cs : List RawComment) (hA : Acyclic cs) :
    (flattenedComments cs).Perm cs := by
  unfold flattenedComments
  have h := (flattenedIndices_perm hA).map (cAt cs)
  rwa [map_cAt_range cs] at h

/-- Witness for the amended C3 on a concrete out-of-order input. -/
theorem claim_C3_witness :
    Acyclic outOfOrder ∧ (flattenedComments outOfOrder).Perm outOfOrder :=
  ⟨by decide, claim_C3_tree_complete outOfOrder (by decide)⟩

/-- Claim C8: a comment whose parent reference does not resolve to any input
comment's id is promoted to a root — never dropped (and the total embedding
has no exceptional path at all: the failed lookup is an ordinary `Option`
miss that falls into the root branch). -/
theorem claim_C8_orphan_promoted (cs : List RawComment) (i : ℕ)
    (hi : i < cs.length)
    (horphan : ∀ pid, (cAt cs i).parentId = some pid →
      ∀ j, j < cs.length → (cAt cs j).id ≠ stripT1 pid) :
    i ∈ rootIndices cs := by
  refine mem_rootIndices.2 ⟨hi, ?_⟩
  unfold parentIdx
  rcases hp : (cAt cs i).parentId with _ | pid
  · rfl
  · dsimp only
    by_cases h1 : pid = ""
    · simp [h1]
    · rw [if_neg h1]
      by_cases h2 : startsWithT3 pid = true
      · simp [h2]
      · rw [if_neg h2]
        have hidx : idIndex cs (stripT1 pid) = none := by
          unfold idIndex
          have hfil : ((List.range cs.length).filter fun j =>
              (cAt cs j).id == stripT1 pid && (cAt cs j).id != "") = [] := by
            rw [List.filter_eq_nil_iff]
            intro j hj
            have hne := horphan pid hp j (List.mem_range.1 hj)
            simp [hne]
          rw [hfil]
          rfl
        rw [hidx]

/-- Witness for C8: the orphan is returned as a root. -/
theorem claim_C8_witness : 0 ∈ rootIndices orphanInput := by
  apply claim_C8_orphan_promoted orphanInput 0 (by decide)
  intro pid hpid j hj
  have h1 : (cAt orphanInput 0).parentId = some "t1_zzz" := rfl
  rw [h1] at hpid
  have h2 := Option.some.inj hpid
  subst h2
  have hj0 : j = 0 := by
    have hlen : orphanInput.length = 1 := rfl
    omega
  subst hj0
  decide

section AssocLemmas

variable {κ β : Type} [DecidableEq κ]

lemma assocGet_nil {k : κ} : assocGet ([] : List (κ × β)) k = none := rfl

lemma assocGet_cons {e : κ × β} {A : List (κ × β)} {k : κ} :
    assocGet (e :: A) k = if e.1 = k then some e.2 else assocGet A k := by
  by_cases h : e.1 = k
  · simp [assocGet, List.find?_cons_of_pos, h]
  · rw [if_neg h]
    unfold assocGet
    rw [List.find?_cons_of_neg]
    simp [h]

lemma assocGet_append_of_none {A B : List (κ × β)} {k : κ}
    (h : assocGet A k = none) : assocGet (A ++ B) k = assocGet B k := by
  induction A with
  | nil => rfl
  | cons e A ih =>
      rw [assocGet_cons] at h
      by_cases he : e.1 = k
      · rw [if_pos he] at h; cases h
      · rw [if_neg he] at h
        rw [List.cons_append, assocGet_cons, if_neg he]
        exact ih h

lemma assocGet_append_of_some {A B : List (κ × β)} {k : κ} {b : β}
    (h : assocGet A k = some b) : assocGet (A ++ B) k = some b := by
  induction A with
  | nil => cases h
  | cons e A ih =>
      rw [assocGet_cons] at h
      by_cases he : e.1 = k
      · rw [if_pos he] at h
        rw [List.cons_append, assocGet_cons, if_pos he]
        exact h
      · rw [if_neg he] at h
        rw [List.cons_append, assocGet_cons, if_neg he]
        exact ih h

lemma assocHas_eq_isSome {A : List (κ × β)} {k : κ} :
    assocHas A k = (assocGet A k).isSome := by
  unfold assocHas assocGet
  cases List.find? (fun e => e.1 == k) A <;> rfl

lemma assocHas_false_not_mem {A : List (κ × β)} {k : κ}
    (h : assocHas A k = false) : ∀ e ∈ A, e.1 ≠ k := by
  intro e he hek
  unfold assocHas at h
  have hsome : (A.find? fun e => e.1 == k).isSome = true :=
    List.find?_isSome.2 ⟨e, he, by simp [hek]⟩
  rw [h] at hsome
  cases hsome

lemma assocUpdate_get_self {A : List (κ × β)} {k : κ} {f : β → β} :
    assocGet (assocUpdate A k f) k = (assocGet A k).map f := by
  induction A with
  | nil => rfl
  | cons e A ih =>
      unfold assocUpdate
      by_cases he : e.1 = k
      · simp only [List.map_cons, he, beq_self_eq_true, if_true]
        rw [assocGet_cons, assocGet_cons]
        simp [he]
      · have hne : (e.1 == k) = false := by simp [he]
        simp only [List.map_cons, hne, Bool.false_eq_true, if_false]
        rw [assocGet_cons, if_neg he, assocGet_cons, if_neg he]
        exact ih

lemma assocUpdate_get_ne {A : List (κ × β)} {k k' : κ} {f : β → β}
    (h : k' ≠ k) :
    assocGet (assocUpdate A k f) k' = assocGet A k' := by
  induction A with
  | nil => rfl
  | cons e A ih =>
      unfold assocUpdate
      by_cases he : e.1 = k
      · simp only [List.map_cons, he, beq_self_eq_true, if_true]
        rw [assocGet_cons, assocGet_cons]
        have hkk : ¬ k = k' := fun hh => h hh.symm
        simp only [he]
        rw [if_neg hkk, if_neg hkk]
        exact ih
      · have hne : (e.1 == k) = false := by simp [he]
        simp only [List.map_cons, hne, Bool.false_eq_true, if_false]
        rw [assocGet_cons, assocGet_cons]
        by_cases he' : e.1 = k'
        · rw [if_pos he', if_pos he']
        · rw [if_neg he', if_neg he']
          exact ih

lemma assocUpdate_keys {A : List (κ × β)} {k : κ} {f : β → β} :
    (assocUpdate A k f).map Prod.fst = A.map Prod.fst := by
  unfold assocUpdate
  rw [List.map_map]
  apply List.map_congr_left
  intro e _
  by_cases he : e.1 = k <;> simp [he]

lemma assocUpdate_length {A : List (κ × β)} {k : κ} {f : β → β} :
    (assocUpdate A k f).length = A.length := by
  simp [assocUpdate]

lemma assocUpdate_no_key {A : List (κ × β)} {k : κ} {f : β → β}
    (h : ∀ e ∈ A, e.1 ≠ k) : assocUpdate A k f = A := by
  unfold assocUpdate
  have hcongr : ∀ e ∈ A,
      (if (e.1 == k) = true then (e.1, f e.2) else e) = id e := by
    intro e he
    simp [h e he]
  rw [List.map_congr_left hcongr, List.map_id]

lemma assocGet_eq_some_of_mem_nodup {A : List (κ × β)} {k : κ} {b : β}
    (hnd : (A.map Prod.fst).Nodup) (hmem : (k, b) ∈ A) :
    assocGet A k = some b := by
  induction A with
  | nil => cases hmem
  | cons e A ih =>
      rcases List.mem_cons.1 hmem with heq | hmem'
      · rw [← heq, assocGet_cons]
        simp
      · rw [assocGet_cons]
        have hk : k ∈ A.map Prod.fst :=
          List.mem_map.2 ⟨(k, b), hmem', rfl⟩
        have he : e.1 ≠ k := by
          intro hh
          exact (List.nodup_cons.1 (by simpa using hnd)).1 (hh ▸ hk)
        rw [if_neg he]
        exact ih (List.nodup_cons.1 (by simpa using hnd)).2 hmem'

lemma mem_of_assocGet_eq_some {A : List (κ × β)} {k : κ} {b : β}
    (h : assocGet A k = some b) : (k, b) ∈ A := by
  induction A with
  | nil => cases h
  | cons e A ih =>
      rw [assocGet_cons] at h
      by_cases he : e.1 = k
      · rw [if_pos he] at h
        have hb := Option.some.inj h
        rcases e with ⟨e1, e2⟩
        cases he
        cases hb
        exact List.mem_cons_self _ _
      · rw [if_neg he] at h
        exact List.mem_cons_of_mem _ (ih h)

end AssocLemmas

section AssocFold

variable {κ β α : Type} [DecidableEq κ]

lemma groupOf_append_one (keyOf : α → κ) (P : List α) (x : α) (k : κ) :
    groupOf keyOf (P ++ [x]) k =
      groupOf keyOf P k ++ (if keyOf x = k then [x] else []) := by
  unfold groupOf
  rw [List.filter_append]
  by_cases h : keyOf x = k <;> simp [h]

lemma mergedOf_eq_none {init : α → β} {add : β → α → β} {grp : List α} :
    mergedOf init add grp = none ↔ grp = [] := by
  cases grp <;> simp [mergedOf]

/-- Effect of one loop iteration on the four invariants of the keyed map. -/
lemma assocStep_char (keyOf : α → κ) (keyOfVal : β → κ) (init : α → β)
    (add : β → α → β)
    (hinit : ∀ x, keyOfVal (init x) = keyOf x)
    (hadd : ∀ b x, keyOfVal (add b x) = keyOfVal b)
    (P : List α) (A : List (κ × β)) (x : α)
    (h1 : (A.map Prod.fst).Nodup)
    (h2 : ∀ e ∈ A, keyOfVal e.2 = e.1)
    (h3 : ∀ k, assocGet A k = mergedOf init add (groupOf keyOf P k))
    (h4 : A.length = ((P.map keyOf).toFinset).card) :
    (((assocStep keyOf init add A x).map Prod.fst).Nodup) ∧
    (∀ e ∈ assocStep keyOf init add A x, keyOfVal e.2 = e.1) ∧
    (∀ k, assocGet (assocStep keyOf init add A x) k =
      mergedOf init add (groupOf keyOf (P ++ [x]) k)) ∧
    (assocStep keyOf init add A x).length =
      (((P ++ [x]).map keyOf).toFinset).card := by
  by_cases hhas : assocHas A (keyOf x) = true
  · have hstep : assocStep keyOf init add A x =
        assocUpdate A (keyOf x) fun b => add b x := by
      unfold assocStep
      dsimp only
      rw [if_pos hhas]
    obtain ⟨b0, hb0⟩ : ∃ b0, assocGet A (keyOf x) = some b0 := by
      rw [assocHas_eq_isSome] at hhas
      exact Option.isSome_iff_exists.1 hhas
    have hgrp : mergedOf init add (groupOf keyOf P (keyOf x)) = some b0 := by
      rw [← h3]; exact hb0
    obtain ⟨x0, xs, hx0⟩ : ∃ x0 xs,
        groupOf keyOf P (keyOf x) = x0 :: xs := by
      rcases hgg : groupOf keyOf P (keyOf x) with _ | ⟨x0, xs⟩
      · rw [hgg] at hgrp; cases hgrp
      · exact ⟨x0, xs, rfl⟩
    have hb0val : b0 = (x0 :: xs).foldl add (init x0) := by
      rw [hx0] at hgrp
      unfold mergedOf at hgrp
      exact (Option.some.inj hgrp).symm
    rw [hstep]
    refine ⟨by rw [assocUpdate_keys]; exact h1, ?_, ?_, ?_⟩
    · intro e he
      unfold assocUpdate at he
      rcases List.mem_map.1 he with ⟨e0, he0, rfl⟩
      by_cases hk : e0.1 = keyOf x
      · simp only [hk, beq_self_eq_true, if_true]
        rw [hadd, ← hk]
        exact h2 e0 he0
      · have hne : (e0.1 == keyOf x) = false := by simp [hk]
        simp only [hne, Bool.false_eq_true, if_false]
        exact h2 e0 he0
    · intro k
      by_cases hk : k = keyOf x
      · subst hk
        rw [assocUpdate_get_self, hb0, groupOf_append_one, if_pos rfl, hx0,
          List.cons_append]
        dsimp only [Option.map, mergedOf]
        rw [hb0val]
        simp [List.foldl_append]
      · rw [assocUpdate_get_ne hk, groupOf_append_one]
        have hemp : (if keyOf x = k then [x] else []) = ([] : List α) := by
          rw [if_neg fun hh => hk hh.symm]
        rw [hemp, List.append_nil]
        exact h3 k
    · rw [assocUpdate_length, h4]
      have hkmem : keyOf x ∈ (P.map keyOf).toFinset := by
        have hx0mem : x0 ∈ groupOf keyOf P (keyOf x) := by rw [hx0]; simp
        have hx0P := List.mem_filter.1 hx0mem
        have hx0key : keyOf x0 = keyOf x := by simpa using hx0P.2
        rw [List.mem_toFinset]
        exact List.mem_map.2 ⟨x0, hx0P.1, hx0key⟩
      rw [List.map_append, List.toFinset_append]
      simp only [List.map_cons, List.map_nil, List.toFinset_cons,
        List.toFinset_nil]
      rw [insert_emptyc_eq, Finset.union_comm]
      rw [Finset.union_eq_right.2 (by simpa using hkmem)]
  · have hhasf : assocHas A (keyOf x) = false := by
      simpa using hhas
    have hnomem := assocHas_false_not_mem hhasf
    have hgetnone : assocGet A (keyOf x) = none := by
      rw [assocHas_eq_isSome] at hhasf
      rcases hg : assocGet A (keyOf x) with _ | b
      · rfl
      · rw [hg] at hhasf; cases hhasf
    have hgrpnil : groupOf keyOf P (keyOf x) = [] := by
      have hmerge : mergedOf init add (groupOf keyOf P (keyOf x)) = none := by
        rw [← h3]
        exact hgetnone
      exact mergedOf_eq_none.1 hmerge
    have hstep : assocStep keyOf init add A x =
        A ++ [(keyOf x, add (init x) x)] := by
      unfold assocStep
      dsimp only
      rw [if_neg (by simp [hhasf])]
      unfold assocUpdate
      rw [List.map_append]
      have hAunch : (A.map fun e =>
          if (e.1 == keyOf x) = true then (e.1, add e.2 x) else e) = A := by
        have hnk : assocUpdate A (keyOf x) (fun b => add b x) = A :=
          assocUpdate_no_key hnomem
        simpa [assocUpdate] using hnk
      rw [hAunch]
      simp
    rw [hstep]
    refine ⟨?_, ?_, ?_, ?_⟩
    · rw [List.map_append, List.nodup_append]
      refine ⟨h1, by simp, ?_⟩
      intro a ha hb
      simp only [List.map_cons, List.map_nil, List.mem_cons,
        List.not_mem_nil, or_false] at hb
      rcases List.mem_map.1 ha with ⟨e, he, rfl⟩
      exact hnomem e he (by rw [hb])
    · intro e he
      rcases List.mem_append.1 he with h | h
      · exact h2 e h
      · simp only [List.mem_cons, List.not_mem_nil, or_false] at h
        rw [h]
        show keyOfVal (add (init x) x) = keyOf x
        rw [hadd, hinit]
    · intro k
      by_cases hk : k = keyOf x
      · subst hk
        rw [assocGet_append_of_none hgetnone]
        rw [groupOf_append_one, hgrpnil]
        simp only [if_pos rfl, List.nil_append]
        rw [assocGet_cons]
        simp [mergedOf]
      · rw [groupOf_append_one]
        have hemp : (if keyOf x = k then [x] else []) = ([] : List α) := by
          rw [if_neg fun hh => hk hh.symm]
        rw [hemp, List.append_nil]
        rcases hget : assocGet A k with _ | b
        · rw [assocGet_append_of_none hget, assocGet_cons]
          rw [if_neg fun hh => hk hh.symm]
          rw [← h3, hget]
          rfl
        · rw [assocGet_append_of_some hget, ← h3, hget]
    · rw [List.length_append, h4]
      have hknotmem : keyOf x ∉ (P.map keyOf).toFinset := by
        rw [List.mem_toFinset]
        intro hmem
        rcases List.mem_map.1 hmem with ⟨y, hy, hyk⟩
        have hygrp : y ∈ groupOf keyOf P (keyOf x) :=
          List.mem_filter.2 ⟨hy, by simp [hyk]⟩
        rw [hgrpnil] at hygrp
        cases hygrp
      rw [List.map_append, List.toFinset_append]
      simp only [List.map_cons, List.map_nil, List.toFinset_cons,
        List.toFinset_nil]
      rw [insert_emptyc_eq, Finset.union_comm]
      rw [Finset.card_union_of_disjoint (by simpa using hknotmem)]
      simp [Nat.add_comm]

/-- Characterization of the whole keyed loop, by induction on the input. -/
lemma foldl_assocStep_char (keyOf : α → κ) (keyOfVal : β → κ) (init : α → β)
    (add : β → α → β)
    (hinit : ∀ x, keyOfVal (init x) = keyOf x)
    (hadd : ∀ b x, keyOfVal (add b x) = keyOfVal b) (L : List α) :
    (((L.foldl (assocStep keyOf init add) []).map Prod.fst).Nodup) ∧
    (∀ e ∈ L.foldl (assocStep keyOf init add) [], keyOfVal e.2 = e.1) ∧
    (∀ k, assocGet (L.foldl (assocStep keyOf init add) []) k =
      mergedOf init add (groupOf keyOf L k)) ∧
    (L.foldl (assocStep keyOf init add) []).length =
      ((L.map keyOf).toFinset).card := by
  suffices h : ∀ (L' P : List α) (A : List (κ × β)),
      ((A.map Prod.fst).Nodup) →
      (∀ e ∈ A, keyOfVal e.2 = e.1) →
      (∀ k, assocGet A k = mergedOf init add (groupOf keyOf P k)) →
      A.length = ((P.map keyOf).toFinset).card →
      (((L'.foldl (assocStep keyOf init add) A).map Prod.fst).Nodup) ∧
      (∀ e ∈ L'.foldl (assocStep keyOf init add) A, keyOfVal e.2 = e.1) ∧
      (∀ k, assocGet (L'.foldl (assocStep keyOf init add) A) k =
        mergedOf init add (groupOf keyOf (P ++ L') k)) ∧
      (L'.foldl (assocStep keyOf init add) A).length =
        (((P ++ L').map keyOf).toFinset).card by
    have hmain := h L [] [] (by simp) (by simp)
      (fun k => by simp [assocGet_nil, groupOf, mergedOf]) (by simp)
    simpa using hmain
  intro L'
  induction L' with
  | nil =>
      intro P A h1 h2 h3 h4
      rw [List.foldl_nil, List.append_nil]
      exact ⟨h1, h2, h3, h4⟩
  | cons x L' ih =>
      intro P A h1 h2 h3 h4
      rw [List.foldl_cons]
      obtain ⟨g1, g2, g3, g4⟩ :=
        assocStep_char keyOf keyOfVal init add hinit hadd P A x h1 h2 h3 h4
      have hrec := ih (P ++ [x]) (assocStep keyOf init add A x) g1 g2 g3 g4
      rwa [List.append_assoc, List.singleton_append] at hrec

end AssocFold

/-- Folding mentions into a chain record: counters and trend accumulate,
`entity`, `uniquePosts` and `averageSentiment` are untouched. -/
lemma foldl_addMention_eq :
    ∀ (ms : List EntityMention) (b : EntityChain),
      ms.foldl addMention b =
        { entity := b.entity
          totalMentions := b.totalMentions + ms.length
          uniquePosts := b.uniquePosts
          totalScore := b.totalScore + (ms.map fun m => m.score).sum
          sentimentTrend := b.sentimentTrend ++ ms.map (fun m =>
            { timestamp := m.timestamp, sentiment := m.sentiment
              score := m.score })
          averageSentiment := b.averageSentiment } := by
  intro ms
  induction ms with
  | nil => intro b; simp
  | cons m ms ih =>
      intro b
      rw [List.foldl_cons, ih]
      simp only [addMention, EntityChain.mk.injEq, List.map_cons,
        List.sum_cons, List.length_cons]
      and_intros <;> first | rfl | simp [List.append_assoc] | omega | ring

lemma foldl_serverAddMention_eq :
    ∀ (ms : List ServerEntityMention) (b : ServerEntityChain),
      ms.foldl serverAddMention b =
        { entity := b.entity
          totalMentions := b.totalMentions + ms.length
          uniquePosts := b.uniquePosts
          totalScore := b.totalScore + (ms.map fun m => m.score).sum
          sentimentTrend := b.sentimentTrend ++ ms.map (fun m =>
            { timestamp := m.timestamp, sentiment := m.sentiment
              score := m.score })
          averageSentiment := b.averageSentiment } := by
  intro ms
  induction ms with
  | nil => intro b; simp
  | cons m ms ih =>
      intro b
      rw [List.foldl_cons, ih]
      simp only [serverAddMention, ServerEntityChain.mk.injEq, List.map_cons,
        List.sum_cons, List.length_cons]
      and_intros <;> first | rfl | simp [List.append_assoc] | omega | ring

lemma foldl_addChain_eq :
    ∀ (cs : List ServerEntityChain) (b : ConsolidatedChain),
      cs.foldl addChain b =
        { entity := b.entity
          totalMentions := b.totalMentions + (cs.map fun c => c.totalMentions).sum
          totalScore := b.totalScore + (cs.map fun c => c.totalScore).sum
          sentimentTrend := b.sentimentTrend ++
            cs.flatMap (fun c => c.sentimentTrend)
          averageSentiment := b.averageSentiment } := by
  intro cs
  induction cs with
  | nil => intro b; simp
  | cons c cs ih =>
      intro b
      rw [List.foldl_cons, ih]
      simp only [addChain, ConsolidatedChain.mk.injEq, List.map_cons,
        List.sum_cons, List.flatMap_cons]
      and_intros <;> first | rfl | simp [List.append_assoc] | omega | ring

/-- `finalizeChain` touches only `uniquePosts` and `averageSentiment`. -/
lemma finalizeChain_preserves (c : EntityChain) :
    (finalizeChain c).entity = c.entity ∧
    (finalizeChain c).totalMentions = c.totalMentions ∧
    (finalizeChain c).totalScore = c.totalScore ∧
    (finalizeChain c).sentimentTrend = c.sentimentTrend := by
  unfold finalizeChain
  by_cases h : 0 < (c.sentimentTrend.map fun t => t.score).sum <;>
    simp [h]

lemma serverFinalizeChain_preserves (c : ServerEntityChain) :
    (serverFinalizeChain c).entity = c.entity ∧
    (serverFinalizeChain c).totalMentions = c.totalMentions ∧
    (serverFinalizeChain c).totalScore = c.totalScore ∧
    (serverFinalizeChain c).sentimentTrend = c.sentimentTrend := by
  unfold serverFinalizeChain
  by_cases h : 0 < (c.sentimentTrend.map fun t => t.score).sum <;>
    simp [h]

/-- Every chain returned by `buildEntityChains` is the finalization of the
fold of one non-empty key-group of the input mentions. -/
lemma mem_buildEntityChains_decomp {mentions : List EntityMention}
    {chain : EntityChain} (h : chain ∈ buildEntityChains mentions) :
    ∃ x0 xs, groupOf (fun m => entityKey m.entity) mentions
        (entityKey x0.entity) = x0 :: xs ∧
      chain = finalizeChain ((x0 :: xs).foldl addMention (initialChain x0)) := by
  unfold buildEntityChains at h
  rw [List.Perm.mem_iff (List.mergeSort_perm _ _)] at h
  rcases List.mem_map.1 h with ⟨b, hb, rfl⟩
  rcases List.mem_map.1 hb with ⟨e, he, rfl⟩
  obtain ⟨h1, h2, h3, h4⟩ := foldl_assocStep_char
    (fun m : EntityMention => entityKey m.entity)
    (fun c : EntityChain => entityKey c.entity)
    initialChain addMention (fun x => rfl) (fun b x => rfl) mentions
  have hget := assocGet_eq_some_of_mem_nodup h1
    (show (e.1, e.2) ∈ _ from he)
  rw [h3 e.1] at hget
  rcases hgrp : groupOf (fun m : EntityMention => entityKey m.entity)
      mentions e.1 with _ | ⟨x0, xs⟩
  · rw [hgrp] at hget; cases hget
  · rw [hgrp] at hget
    unfold mergedOf at hget
    have hkey : entityKey x0.entity = e.1 := by
      have hx0mem : x0 ∈ groupOf (fun m : EntityMention => entityKey m.entity)
          mentions e.1 := by rw [hgrp]; simp
      exact of_decide_eq_true ((List.mem_filter.1 hx0mem).2)
    refine ⟨x0, xs, by rw [hkey, hgrp], ?_⟩
    rw [(Option.some.inj hget)]

/-- Every chain returned by the server `buildEntityChains`, likewise. -/
lemma mem_serverBuildEntityChains_decomp
    {mentions : List ServerEntityMention} {chain : ServerEntityChain}
    (h : chain ∈ serverBuildEntityChains mentions) :
    ∃ x0 xs, groupOf (fun m => entityKey m.entity) mentions
        (entityKey x0.entity) = x0 :: xs ∧
      chain = serverFinalizeChain
        ((x0 :: xs).foldl serverAddMention (serverInitialChain x0)) := by
  unfold serverBuildEntityChains at h
  rw [List.Perm.mem_iff (List.mergeSort_perm _ _)] at h
  rcases List.mem_map.1 h with ⟨b, hb, rfl⟩
  rcases List.mem_map.1 hb with ⟨e, he, rfl⟩
  obtain ⟨h1, h2, h3, h4⟩ := foldl_assocStep_char
    (fun m : ServerEntityMention => entityKey m.entity)
    (fun c : ServerEntityChain => entityKey c.entity)
    serverInitialChain serverAddMention (fun x => rfl) (fun b x => rfl)
    mentions
  have hget := assocGet_eq_some_of_mem_nodup h1
    (show (e.1, e.2) ∈ _ from he)
  rw [h3 e.1] at hget
  rcases hgrp : groupOf (fun m : ServerEntityMention => entityKey m.entity)
      mentions e.1 with _ | ⟨x0, xs⟩
  · rw [hgrp] at hget; cases hget
  · rw [hgrp] at hget
    unfold mergedOf at hget
    have hkey : entityKey x0.entity = e.1 := by
      have hx0mem : x0 ∈ groupOf
          (fun m : ServerEntityMention => entityKey m.entity)
          mentions e.1 := by rw [hgrp]; simp
      exact of_decide_eq_true ((List.mem_filter.1 hx0mem).2)
    refine ⟨x0, xs, by rw [hkey, hgrp], ?_⟩
    rw [(Option.some.inj hget)]

lemma sum_flatMap_int {α : Type} (l : List α) (g : α → List ℤ) :
    (l.flatMap g).sum = (l.map fun x => (g x).sum).sum := by
  induction l with
  | nil => rfl
  | cons x l ih => simp [List.sum_append, ih]

/-- Claim C5 describes the intent, but the code derives `uniquePosts` from
the SET OF SCORE STRINGS of the trend, not from post identifiers: for an
entity mentioned in two distinct posts with equal comment scores the chain
reports `uniquePosts = 1` although 2 distinct posts are involved.  (The
trend entries do not even retain `postId`.) -/
theorem claim_C5_uniquePosts_from_scores :
    ((buildEntityChains [c5m1, c5m2]).map fun c => c.uniquePosts) = [1]
      ∧ (([c5m1, c5m2].map fun m => m.postId).dedup).length = 2 := by
  have hsing : buildEntityChains [c5m1, c5m2] =
      List.mergeSort
        [finalizeChain (addMention (addMention (initialChain c5m1) c5m1) c5m2)]
        (fun a b => decide (b.totalScore ≤ a.totalScore)) := rfl
  rw [hsing, List.mergeSort_singleton]
  constructor
  · rfl
  · rfl

/-- Claim C6: the chain invariants `totalMentions = sentimentTrend.length`
and `totalScore = sum of trend scores` hold for every chain built by
`buildEntityChains`, and are preserved by the consolidation whenever its
input chains satisfy them. -/
theorem claim_C6_chain_invariants :
    (∀ (mentions : List EntityMention), ∀ chain ∈ buildEntityChains mentions,
      chain.totalMentions = chain.sentimentTrend.length ∧
      chain.totalScore = (chain.sentimentTrend.map fun t => t.score).sum)
    ∧ (∀ (query : String) (analyses : List SubredditEntityAnalysis)
        (out : ConsolidatedEntityData),
        (∀ a ∈ analyses, ∀ c ∈ a.entityChains,
          c.totalMentions = c.sentimentTrend.length ∧
          c.totalScore = (c.sentimentTrend.map fun t => t.score).sum) →
        consolidateEntityData query analyses = some out →
        ∀ chain ∈ out.entityChains,
          chain.totalMentions = chain.sentimentTrend.length ∧
          chain.totalScore = (chain.sentimentTrend.map fun t => t.score).sum) := by
  constructor
  · intro mentions chain hmem
    obtain ⟨x0, xs, hgrp, rfl⟩ := mem_buildEntityChains_decomp hmem
    obtain ⟨_, hM, hS, hT⟩ := finalizeChain_preserves
      ((x0 :: xs).foldl addMention (initialChain x0))
    rw [hM, hS, hT, foldl_addMention_eq]
    constructor
    · simp [initialChain]
    · simp only [initialChain, List.nil_append, List.map_map]
      rw [Int.zero_add]
      congr 1
  · intro query analyses out hinv hout chain hmem
    unfold consolidateEntityData at hout
    by_cases hlen : analyses.length = 0
    · rw [if_pos hlen] at hout; cases hout
    · rw [if_neg hlen] at hout
      dsimp only at hout
      have hchains : out.entityChains =
          ((((analyses.flatMap fun a => a.entityChains).foldl
            (assocStep (fun c => entityKey c.entity) initialConsolidated
              addChain) []).map Prod.snd).mergeSort
            fun a b => decide (b.totalScore ≤ a.totalScore)) := by
        rw [← Option.some.inj hout]
      rw [hchains] at hmem
      rw [List.Perm.mem_iff (List.mergeSort_perm _ _)] at hmem
      rcases List.mem_map.1 hmem with ⟨e, he, rfl⟩
      obtain ⟨h1, h2, h3, h4⟩ := foldl_assocStep_char
        (fun c : ServerEntityChain => entityKey c.entity)
        (fun c : ConsolidatedChain => entityKey c.entity)
        initialConsolidated addChain (fun x => rfl) (fun b x => rfl)
        (analyses.flatMap fun a => a.entityChains)
      have hget := assocGet_eq_some_of_mem_nodup h1
        (show (e.1, e.2) ∈ _ from he)
      rw [h3 e.1] at hget
      rcases hgrp : groupOf
          (fun c : ServerEntityChain => entityKey c.entity)
          (analyses.flatMap fun a => a.entityChains) e.1 with _ | ⟨x0, xs⟩
      · rw [hgrp] at hget; cases hget
      · rw [hgrp] at hget
        unfold mergedOf at hget
        rw [← Option.some.inj hget, foldl_addChain_eq]
        have hmemgrp : ∀ c ∈ x0 :: xs,
            c.totalMentions = c.sentimentTrend.length ∧
            c.totalScore = (c.sentimentTrend.map fun t => t.score).sum := by
          intro c hc
          have hcgrp : c ∈ groupOf
              (fun c : ServerEntityChain => entityKey c.entity)
              (analyses.flatMap fun a => a.entityChains) e.1 := by
            rw [hgrp]; exact hc
          have hcall := (List.mem_filter.1 hcgrp).1
          rcases List.mem_flatMap.1 hcall with ⟨a, ha, hca⟩
          exact hinv a ha c hca
        constructor
        · simp only [initialConsolidated, Nat.zero_add, List.nil_append]
          rw [List.length_flatMap]
          congr 1
          apply List.map_congr_left
          intro c hc
          exact (hmemgrp c hc).1
        · simp only [initialConsolidated, Int.zero_add, List.nil_append]
          rw [List.map_flatMap, sum_flatMap_int]
          congr 1
          apply List.map_congr_left
          intro c hc
          exact (hmemgrp c hc).2

/-- Concrete evaluation of the builder on the two C6 mentions: both share
the key, so one chain results; its score sum is `-3 ≤ 0`, so `finalizeChain`
takes the `else` branch. -/
lemma c6_build_eq : buildEntityChains [c6m1, c6m2] = [c6Chain] := by
  have hsing : buildEntityChains [c6m1, c6m2] =
      List.mergeSort
        [finalizeChain (addMention (addMention (initialChain c6m1) c6m1) c6m2)]
        (fun a b => decide (b.totalScore ≤ a.totalScore)) := rfl
  rw [hsing, List.mergeSort_singleton]
  decide

/-- Witness for C6 (builder half) at a concrete mention list. -/
theorem claim_C6_witness :
    c6Chain.totalMentions = c6Chain.sentimentTrend.length ∧
    c6Chain.totalScore = (c6Chain.sentimentTrend.map fun t => t.score).sum :=
  claim_C6_chain_invariants.1 [c6m1, c6m2] c6Chain
    (by rw [c6_build_eq]; exact List.mem_singleton.2 rfl)

lemma nerWeightedFold_eq (S : ℤ) :
    ∀ (ts : List TrendEntry) (a : NerAcc),
      ts.foldl (fun (acc : NerAcc) trend =>
        { positivity := acc.positivity +
            trend.sentiment.positivity * ((trend.score : ℚ) / (S : ℚ))
          negativity := acc.negativity +
            trend.sentiment.negativity * ((trend.score : ℚ) / (S : ℚ))
          neutrality := acc.neutrality +
            trend.sentiment.neutrality * ((trend.score : ℚ) / (S : ℚ))
          compound := acc.compound +
            trend.sentiment.compound * ((trend.score : ℚ) / (S : ℚ)) }) a =
      { positivity := a.positivity + (ts.map fun t =>
          t.sentiment.positivity * ((t.score : ℚ) / (S : ℚ))).sum
        negativity := a.negativity + (ts.map fun t =>
          t.sentiment.negativity * ((t.score : ℚ) / (S : ℚ))).sum
        neutrality := a.neutrality + (ts.map fun t =>
          t.sentiment.neutrality * ((t.score : ℚ) / (S : ℚ))).sum
        compound := a.compound + (ts.map fun t =>
          t.sentiment.compound * ((t.score : ℚ) / (S : ℚ))).sum } := by
  intro ts
  induction ts with
  | nil => intro a; simp
  | cons t ts ih =>
      intro a
      rw [List.foldl_cons, ih]
      simp only [List.map_cons, List.sum_cons, NerAcc.mk.injEq]
      refine ⟨by ring, by ring, by ring, by ring⟩

lemma serverWeightedFold_eq (S : ℤ) :
    ∀ (ts : List ServerTrendEntry) (a : SentimentScores),
      ts.foldl (fun (acc : SentimentScores) trend =>
        { neg := acc.neg +
            trend.sentiment.original.neg * ((trend.score : ℚ) / (S : ℚ))
          neu := acc.neu +
            trend.sentiment.original.neu * ((trend.score : ℚ) / (S : ℚ))
          pos := acc.pos +
            trend.sentiment.original.pos * ((trend.score : ℚ) / (S : ℚ))
          compound := acc.compound +
            trend.sentiment.original.compound * ((trend.score : ℚ) / (S : ℚ)) }) a =
      { neg := a.neg + (ts.map fun t =>
          t.sentiment.original.neg * ((t.score : ℚ) / (S : ℚ))).sum
        neu := a.neu + (ts.map fun t =>
          t.sentiment.original.neu * ((t.score : ℚ) / (S : ℚ))).sum
        pos := a.pos + (ts.map fun t =>
          t.sentiment.original.pos * ((t.score : ℚ) / (S : ℚ))).sum
        compound := a.compound + (ts.map fun t =>
          t.sentiment.original.compound * ((t.score : ℚ) / (S : ℚ))).sum } := by
  intro ts
  induction ts with
  | nil => intro a; simp
  | cons t ts ih =>
      intro a
      rw [List.foldl_cons, ih]
      simp only [List.map_cons, List.sum_cons, SentimentScores.mk.injEq]
      refine ⟨by ring, by ring, by ring, by ring⟩

lemma c7_build_eq : serverBuildEntityChains [c7m0] = [c7Chain] := by
  have hsing : serverBuildEntityChains [c7m0] =
      List.mergeSort
        [serverFinalizeChain (serverAddMention (serverInitialChain c7m0) c7m0)]
        (fun a b => decide (b.totalScore ≤ a.totalScore)) := rfl
  rw [hsing, List.mergeSort_singleton]
  rfl

/-- The spec's neutral default `{0,0,0,0,"neutral"}` does NOT match the
server builder: for a group with score sum 0 the server chain's
`averageSentiment` is the `neu = 1` record, whose `neu` field is 1, not 0. -/
theorem claim_C7_counterexample :
    ((serverBuildEntityChains [c7m0]).map fun c => c.averageSentiment) =
      [serverNeutralSentiment]
    ∧ serverNeutralSentiment.original.neu = 1 ∧ (1 : ℚ) ≠ 0 := by
  refine ⟨?_, rfl, by norm_num⟩
  rw [c7_build_eq]
  rfl

/-- Claim C7, amended: every chain of either builder carries, when its trend
score sum is positive, exactly the spec's score-weighted mean over ALL its
events; when the sum is `≤ 0`, the ner builder leaves the all-zero
`{0,0,0,0,"neutral"}` default (as the spec says), but the server builder
resets the average to its `neu = 1` neutral record instead. -/
theorem claim_C7_chain_average :
    (∀ (mentions : List EntityMention), ∀ chain ∈ buildEntityChains mentions,
      (0 < (chain.sentimentTrend.map fun t => t.score).sum →
        chain.averageSentiment = specNerWeightedAvg chain.sentimentTrend) ∧
      (¬ 0 < (chain.sentimentTrend.map fun t => t.score).sum →
        chain.averageSentiment = ⟨0, 0, 0, 0, "neutral"⟩))
    ∧ (∀ (mentions : List ServerEntityMention),
        ∀ chain ∈ serverBuildEntityChains mentions,
      (0 < (chain.sentimentTrend.map fun t => t.score).sum →
        chain.averageSentiment =
          { original := specServerWeightedScores chain.sentimentTrend
            overall := specServerWeightedScores chain.sentimentTrend
            label :=
              classifySentiment
                (specServerWeightedScores chain.sentimentTrend).compound }) ∧
      (¬ 0 < (chain.sentimentTrend.map fun t => t.score).sum →
        chain.averageSentiment = serverNeutralSentiment)) := by
  constructor
  · intro mentions chain hmem
    obtain ⟨x0, xs, hgrp, rfl⟩ := mem_buildEntityChains_decomp hmem
    have hT := (finalizeChain_preserves
      ((x0 :: xs).foldl addMention (initialChain x0))).2.2.2
    rw [hT]
    constructor
    · intro hpos
      unfold finalizeChain
      dsimp only
      rw [if_pos hpos]
      dsimp only
      rw [nerWeightedFold_eq]
      simp only [specNerWeightedAvg, zero_add]
    · intro hneg
      unfold finalizeChain
      dsimp only
      rw [if_neg hneg]
      dsimp only
      rw [foldl_addMention_eq]
      rfl
  · intro mentions chain hmem
    obtain ⟨x0, xs, hgrp, rfl⟩ := mem_serverBuildEntityChains_decomp hmem
    have hT := (serverFinalizeChain_preserves
      ((x0 :: xs).foldl serverAddMention (serverInitialChain x0))).2.2.2
    rw [hT]
    constructor
    · intro hpos
      unfold serverFinalizeChain
      dsimp only
      rw [if_pos hpos]
      dsimp only
      rw [serverWeightedFold_eq]
      simp only [specServerWeightedScores, zero_add]
    · intro hneg
      unfold serverFinalizeChain
      dsimp only
      rw [if_neg hneg]

/-- Witness for C7 at a concrete server chain group with score sum 0: the
`else` branch yields the `neu = 1` record. -/
theorem claim_C7_witness :
    c7Chain.averageSentiment = serverNeutralSentiment :=
  (claim_C7_chain_average.2 [c7m0] c7Chain
    (by rw [c7_build_eq]; exact List.mem_singleton.2 rfl)).2 (by decide)

/-- Claim C4: consolidation merges all per-source chains sharing a key into
exactly one chain (distinct keys in the output), whose counters are the sums
of the per-source values, whose trend is the concatenation of the per-source
trends in source-list order, and whose `averageSentiment` is the
first-encountered source chain's; `totalEntities` counts each cross-source
key once, and the chain list is sorted descending by merged `totalScore`. -/
theorem claim_C4_consolidation :
    ∀ (query : String) (analyses : List SubredditEntityAnalysis)
      (out : ConsolidatedEntityData),
      consolidateEntityData query analyses = some out →
      ((out.entityChains.map fun c => entityKey c.entity).Nodup)
      ∧ (∀ (k : EntityType × String) (x0 : ServerEntityChain)
          (xs : List ServerEntityChain),
          groupOf (fun c => entityKey c.entity)
            (analyses.flatMap fun a => a.entityChains) k = x0 :: xs →
          ({ entity := x0.entity
             totalMentions := ((x0 :: xs).map fun c => c.totalMentions).sum
             totalScore := ((x0 :: xs).map fun c => c.totalScore).sum
             sentimentTrend := (x0 :: xs).flatMap fun c => c.sentimentTrend
             averageSentiment := x0.averageSentiment } : ConsolidatedChain)
            ∈ out.entityChains)
      ∧ (∀ chain ∈ out.entityChains, ∃ x0 xs,
          groupOf (fun c => entityKey c.entity)
            (analyses.flatMap fun a => a.entityChains)
            (entityKey chain.entity) = x0 :: xs ∧
          chain =
            { entity := x0.entity
              totalMentions := ((x0 :: xs).map fun c => c.totalMentions).sum
              totalScore := ((x0 :: xs).map fun c => c.totalScore).sum
              sentimentTrend := (x0 :: xs).flatMap fun c => c.sentimentTrend
              averageSentiment := x0.averageSentiment })
      ∧ out.totalEntities =
          (((analyses.flatMap fun a => a.entityChains).map
            fun c => entityKey c.entity).toFinset).card
      ∧ out.entityChains.Pairwise fun a b => b.totalScore ≤ a.totalScore := by
  intro query analyses out hout
  unfold consolidateEntityData at hout
  by_cases hlen : analyses.length = 0
  · rw [if_pos hlen] at hout; cases hout
  rw [if_neg hlen] at hout
  dsimp only at hout
  obtain ⟨h1, h2, h3, h4⟩ := foldl_assocStep_char
    (fun c : ServerEntityChain => entityKey c.entity)
    (fun c : ConsolidatedChain => entityKey c.entity)
    initialConsolidated addChain (fun x => rfl) (fun b x => rfl)
    (analyses.flatMap fun a => a.entityChains)
  have hchains : out.entityChains =
      (((((analyses.flatMap fun a => a.entityChains).foldl
        (assocStep (fun c => entityKey c.entity) initialConsolidated
          addChain) []).map Prod.snd).mergeSort
        fun a b => decide (b.totalScore ≤ a.totalScore))) := by
    rw [← Option.some.inj hout]
  have htot : out.totalEntities =
      (((((analyses.flatMap fun a => a.entityChains).foldl
        (assocStep (fun c => entityKey c.entity) initialConsolidated
          addChain) []).map Prod.snd).mergeSort
        fun a b => decide (b.totalScore ≤ a.totalScore))).length := by
    rw [← Option.some.inj hout]
  have hperm := List.mergeSort_perm
    ((((analyses.flatMap fun a => a.entityChains).foldl
      (assocStep (fun c => entityKey c.entity) initialConsolidated
        addChain) []).map Prod.snd))
    (fun a b => decide (b.totalScore ≤ a.totalScore))
  have hmapkeys : ((((analyses.flatMap fun a => a.entityChains).foldl
      (assocStep (fun c => entityKey c.entity) initialConsolidated
        addChain) []).map Prod.snd).map fun c => entityKey c.entity) =
      (((analyses.flatMap fun a => a.entityChains).foldl
        (assocStep (fun c => entityKey c.entity) initialConsolidated
          addChain) []).map Prod.fst) := by
    rw [List.map_map]
    apply List.map_congr_left
    intro e he
    exact h2 e he
  refine ⟨?_, ?_, ?_, ?_, ?_⟩
  · rw [hchains]
    refine ((hperm.map fun c => entityKey c.entity).nodup_iff).2 ?_
    rw [hmapkeys]
    exact h1
  · intro k x0 xs hgrp
    have hget : assocGet
        (((analyses.flatMap fun a => a.entityChains).foldl
          (assocStep (fun c => entityKey c.entity) initialConsolidated
            addChain) [])) k =
        some ((x0 :: xs).foldl addChain (initialConsolidated x0)) := by
      rw [h3 k, hgrp]
      rfl
    have hmemA := mem_of_assocGet_eq_some hget
    have hmem2 : ((x0 :: xs).foldl addChain (initialConsolidated x0)) ∈
        (((analyses.flatMap fun a => a.entityChains).foldl
          (assocStep (fun c => entityKey c.entity) initialConsolidated
            addChain) []).map Prod.snd) :=
      List.mem_map.2 ⟨(k, (x0 :: xs).foldl addChain (initialConsolidated x0)),
        hmemA, rfl⟩
    have heq : (x0 :: xs).foldl addChain (initialConsolidated x0) =
        { entity := x0.entity
          totalMentions := ((x0 :: xs).map fun c => c.totalMentions).sum
          totalScore := ((x0 :: xs).map fun c => c.totalScore).sum
          sentimentTrend := (x0 :: xs).flatMap fun c => c.sentimentTrend
          averageSentiment := x0.averageSentiment } := by
      rw [foldl_addChain_eq]
      simp [initialConsolidated]
    rw [hchains, List.Perm.mem_iff hperm, ← heq]
    exact hmem2
  · intro chain hmem
    rw [hchains, List.Perm.mem_iff hperm] at hmem
    rcases List.mem_map.1 hmem with ⟨e, he, rfl⟩
    have hget := assocGet_eq_some_of_mem_nodup h1
      (show (e.1, e.2) ∈ _ from he)
    rw [h3 e.1] at hget
    have hkey : entityKey e.2.entity = e.1 := h2 e he
    rcases hgrp : groupOf (fun c => entityKey c.entity)
        (analyses.flatMap fun a => a.entityChains) e.1 with _ | ⟨x0, xs⟩
    · rw [hgrp] at hget; cases hget
    · rw [hgrp] at hget
      unfold mergedOf at hget
      refine ⟨x0, xs, ?_, ?_⟩
      · rw [hkey]; exact hgrp
      · rw [← Option.some.inj hget, foldl_addChain_eq]
        simp [initialConsolidated]
  · rw [htot, List.length_mergeSort, List.length_map, h4]
  · rw [hchains]
    have hs : ((((analyses.flatMap fun a => a.entityChains).foldl
        (assocStep (fun c => entityKey c.entity) initialConsolidated
          addChain) []).map Prod.snd).mergeSort
        fun a b => decide (b.totalScore ≤ a.totalScore)).Pairwise
        (fun a b => decide (b.totalScore ≤ a.totalScore) = true) := by
      apply List.sorted_mergeSort
      · intro a b c hab hbc
        simp only [decide_eq_true_eq] at *
        omega
      · intro a b
        simp only [Bool.or_eq_true, decide_eq_true_eq]
        omega
    exact hs.imp fun h => of_decide_eq_true h

lemma c4_consol_eq :
    consolidateEntityData "q" [c4Analysis1, c4Analysis2] = some c4Out := by
  unfold consolidateEntityData
  rw [if_neg (by decide)]
  dsimp only
  rw [show ([c4Analysis1, c4Analysis2].flatMap fun a => a.entityChains).foldl
      (assocStep (fun c => entityKey c.entity) initialConsolidated addChain) []
      = [(entityKey c4Entity, c4Merged)] from rfl]
  rw [show ([(entityKey c4Entity, c4Merged)].map Prod.snd) = [c4Merged]
      from rfl]
  rw [List.mergeSort_singleton]
  rfl

/-- Witness for C4 at two concrete one-chain sources sharing a key. -/
theorem claim_C4_witness :
    c4Merged ∈ c4Out.entityChains ∧ c4Merged.totalScore = 25 ∧
    c4Out.totalEntities = 1 ∧
    c4Out.entityChains.Pairwise fun a b => b.totalScore ≤ a.totalScore := by
  have h := claim_C4_consolidation "q" [c4Analysis1, c4Analysis2] c4Out
    c4_consol_eq
  refine ⟨?_, rfl, rfl, h.2.2.2.2⟩
  have hmem := h.2.1 (entityKey c4Entity) c4Chain1 [c4Chain2] (by decide)
  exact hmem

end Sentiments
